import Mathlib

/-!
Verification development for the Delica Space Gear parts-catalog scraper.

The definitions below are a shallow embedding of the TypeScript sources:
  * `src/scraper/src/scraper/parser.ts` (the flat-cell parts-table scanner,
    listing-section extraction),
  * `src/scraper/src/utils.ts` (`slugify`, `cleanDescription`, the schema's
    replacement-row migration),
  * `src/scraper/src/scraper/index.ts` (crawl scheduler control flow and the
    cross-diagram repair script).
HTML handling (cheerio) is modelled at its output boundary: a parts page is
its flat sequence of `td` cell texts, a listing page is its sequence of
`td.detail-list` sections (heading text plus link hrefs). JavaScript string
operations are embedded at ASCII precision, which the scraped pages and the
claims stay within.
-/

namespace DelicaScraper

/-! ### JavaScript string primitives -/

/-- ASCII uppercase letter, the `[A-Z]` character class. -/
def isUpperAZ (c : Char) : Bool := 'A' ≤ c && c ≤ 'Z'

/-- ASCII lowercase letter, the `[a-z]` character class. -/
def isLowerAZ (c : Char) : Bool := 'a' ≤ c && c ≤ 'z'

/-- Decimal digit, the `\d` character class. -/
def isDigit09 (c : Char) : Bool := '0' ≤ c && c ≤ '9'

/-- The `[A-Z0-9]` character class used by the OEM part-number regex. -/
def isUpperDigit (c : Char) : Bool := isUpperAZ c || isDigit09 c

/-- The `[A-Z0-9]` class under the `/i` flag (`cleanPnc` patterns). -/
def isAlnumCI (c : Char) : Bool := isUpperAZ c || isLowerAZ c || isDigit09 c

/-- JavaScript `\s` restricted to the characters that occur in scraped cells
(ASCII whitespace plus NBSP). -/
def isWsJS (c : Char) : Bool :=
  c = ' ' || c = '\t' || c = '\n' || c = '\r' ||
  c = '\x0b' || c = '\x0c' || c = '\u00A0'

/-- ASCII `String.prototype.toLowerCase` on one character. -/
def lowerChar (c : Char) : Char :=
  if isUpperAZ c then Char.ofNat (c.toNat + 32) else c

/-- ASCII `String.prototype.toLowerCase`. -/
def lowerStr (s : String) : String := ⟨s.data.map lowerChar⟩

/-- Whether `pat` is a prefix of `l` (character lists). -/
def startsWithL : List Char → List Char → Bool
  | _, [] => true
  | [], _ :: _ => false
  | c :: l, p :: ps => c = p && startsWithL l ps

/-- `String.prototype.includes`: `pat` occurs as a contiguous substring. -/
def containsSubL (l pat : List Char) : Bool :=
  startsWithL l pat ||
    match l with
    | [] => false
    | _ :: t => containsSubL t pat

/-- `s.includes(pat)` on strings. -/
def containsSub (s pat : String) : Bool := containsSubL s.data pat.data

/-- `s.toLowerCase().includes(pat)`, the parser's header test. -/
def containsLower (s pat : String) : Bool := containsSub (lowerStr s) pat

/-! ### `parseInt` and truthiness -/

/-- Hex digit for `parseInt`'s `0x` prefix handling. -/
def isHexDigit (c : Char) : Bool :=
  isDigit09 c || ('a' ≤ c && c ≤ 'f') || ('A' ≤ c && c ≤ 'F')

/-- Numeric value of a hex digit. -/
def hexVal (c : Char) : Nat :=
  if isDigit09 c then c.toNat - '0'.toNat
  else if 'a' ≤ c && c ≤ 'f' then c.toNat - 'a'.toNat + 10
  else c.toNat - 'A'.toNat + 10

/-- Fold a digit run into a natural number. -/
def digitsToNat (base : Nat) (ds : List Char) : Nat :=
  ds.foldl (fun n c => n * base + hexVal c) 0

/-- JavaScript `parseInt(s)` (radix unspecified): skip leading whitespace,
optional sign, optional `0x`/`0X` hex prefix, then the longest digit run;
`none` is `NaN`. -/
def jsParseInt (s : String) : Option Int :=
  let l := s.data.dropWhile isWsJS
  let (sign, l) : Int × List Char :=
    match l with
    | '-' :: r => (-1, r)
    | '+' :: r => (1, r)
    | r => (1, r)
  match l with
  | '0' :: x :: r =>
    if x = 'x' || x = 'X' then
      let ds := r.takeWhile isHexDigit
      if ds.isEmpty then none else some (sign * digitsToNat 16 ds)
    else
      let ds := ('0' :: x :: r).takeWhile isDigit09
      some (sign * digitsToNat 10 ds)
  | l =>
    let ds := l.takeWhile isDigit09
    if ds.isEmpty then none else some (sign * digitsToNat 10 ds)

/-- `v || null` on an already-parsed integer: `0` and `NaN` collapse to
`null`. -/
def zeroToNone : Option Int → Option Int
  | none => none
  | some n => if n = 0 then none else some n

/-- `cells[j]` with JavaScript's out-of-range `undefined` collapsed to the
empty string; every use site treats `undefined` and `""` identically
(both are falsy, and index `j` is in range wherever a regex is applied). -/
def getCell (cells : List String) (j : Nat) : String := cells.getD j ""

/-- `x || null` for a cell text: the empty (or missing) cell is `null`. -/
def strOrNone (s : String) : Option String := if s = "" then none else some s

/-! ### The OEM part-number pattern

`parser.ts` line 451:
  `/^[A-Z]{1,3}\d{5,}[A-Z0-9]*$|^[A-Z]{2}[A-Z0-9]{4,}$/`
Since a digit is never an `[A-Z]` letter, the first alternative matches
exactly when the maximal leading letter run has length 1..3, is followed by
a digit run of length at least 5, and every remaining character is in
`[A-Z0-9]`. -/

/-- First alternative `^[A-Z]{1,3}\d{5,}[A-Z0-9]*$`. -/
def oemAlt1 (l : List Char) : Bool :=
  let ls := l.takeWhile isUpperAZ
  let r1 := l.dropWhile isUpperAZ
  let ds := r1.takeWhile isDigit09
  let r2 := r1.dropWhile isDigit09
  decide (1 ≤ ls.length) && decide (ls.length ≤ 3) &&
    decide (5 ≤ ds.length) && r2.all isUpperDigit

/-- Second alternative `^[A-Z]{2}[A-Z0-9]{4,}$`. -/
def oemAlt2 (l : List Char) : Bool :=
  match l with
  | a :: b :: rest =>
    isUpperAZ a && isUpperAZ b && decide (4 ≤ rest.length) && rest.all isUpperDigit
  | _ => false

/-- `oemPattern.test(cell)`. -/
def oemTest (s : String) : Bool := oemAlt1 s.data || oemAlt2 s.data

/-- The anchor header filter of `parser.ts` line 462:
`cell.toLowerCase().includes("oem") || cell.toLowerCase().includes("part number")`. -/
def isHeaderAnchor (s : String) : Bool :=
  containsLower s "oem" || containsLower s "part number"

/-! ### The date-range pattern

`parser.ts` line 479:
  `\d{4} [-./] \d{1,2} [-./]? \d{0,2} \s* [-~] \s* \d{4} [-./] \d{1,2}`
(separator classes written here reordered as `[-./]` for comment syntax;
the source writes them with escapes).
Embedded as a backtracking matcher in continuation-passing style: each
combinator consumes input and hands the rest to the continuation, trying the
greedy alternative first exactly as the JavaScript engine does. `matchAt`
returns the remaining suffix after a successful match at the current
position; `dateSearch` scans positions left to right, giving the leftmost
match, and recovers the matched substring (`match()[0]`). -/

/-- Continuation over the remaining characters. -/
abbrev MCont := List Char → Option (List Char)

/-- A date separator: dot, slash or dash. -/
def isDateSep (c : Char) : Bool := c = '.' || c = '/' || c = '-'

/-- The `[-~]` class. -/
def isDashTilde (c : Char) : Bool := c = '-' || c = '~'

/-- Consume one required character of class `p`. -/
def reqC (p : Char → Bool) (k : MCont) : MCont := fun l =>
  match l with
  | c :: r => if p c then k r else none
  | [] => none

/-- Consume one optional character of class `p`, greedily. -/
def optC (p : Char → Bool) (k : MCont) : MCont := fun l =>
  match l with
  | c :: r => if p c then k r <|> k (c :: r) else k (c :: r)
  | [] => k []

/-- Consume `p*`, greedily with backtracking. -/
def starC (p : Char → Bool) (k : MCont) : MCont := fun l =>
  match l with
  | [] => k []
  | c :: r => (if p c then starC p k r else none) <|> k (c :: r)

/-- `\d{4}`. -/
def fourDigits (k : MCont) : MCont :=
  reqC isDigit09 (reqC isDigit09 (reqC isDigit09 (reqC isDigit09 k)))

/-- `\d{1,2}`, greedy. -/
def oneTwoDigits (k : MCont) : MCont := reqC isDigit09 (optC isDigit09 k)

/-- `\d{0,2}`, greedy. -/
def zeroTwoDigits (k : MCont) : MCont := optC isDigit09 (optC isDigit09 k)

/-- The whole date-range pattern at the current position. -/
def dateRangeAt : MCont :=
  fourDigits (reqC isDateSep (oneTwoDigits (optC isDateSep (zeroTwoDigits
    (starC isWsJS (reqC isDashTilde (starC isWsJS
      (fourDigits (reqC isDateSep (oneTwoDigits some))))))))))

/-- Leftmost unanchored search; returns the matched substring. -/
def dateSearch (l : List Char) : Option (List Char) :=
  match dateRangeAt l with
  | some rest => some (l.take (l.length - rest.length))
  | none =>
    match l with
    | [] => none
    | _ :: t => dateSearch t

/-- `cell.match(dateRangePattern)` returning `match[0]`. -/
def dateMatch (s : String) : Option String := (dateSearch s.data).map (⟨·⟩)

/-! ### Field cleanup helpers (`parser.ts` lines 505-521, `utils.ts`) -/

/-- Literal header words rejected by `cleanField`. -/
def headerWords : List String :=
  ["no", "pnc", "oem", "required", "name", "spec", "notes", "color"]

/-- `cleanField`: drop values equal to a column-header word or containing
"per car". -/
def cleanField (val : Option String) : Option String :=
  match val with
  | none => none
  | some v =>
    if headerWords.contains (lowerStr v) then none
    else if containsLower v "per car" then none
    else some v

/-- `/^\d{5}[A-Z0-9]{0,2}$/i`. -/
def pncFive (l : List Char) : Bool :=
  decide (5 ≤ l.length) && decide (l.length ≤ 7) &&
    (l.take 5).all isDigit09 && (l.drop 5).all isAlnumCI

/-- `/^\d{4}[A-Z0-9]?$/i`. -/
def pncFour (l : List Char) : Bool :=
  decide (4 ≤ l.length) && decide (l.length ≤ 5) &&
    (l.take 4).all isDigit09 && (l.drop 4).all isAlnumCI

/-- `cleanPnc`: keep only 4-5 digit codes with a short alphanumeric
suffix. -/
def cleanPnc (val : Option String) : Option String :=
  match val with
  | none => none
  | some v => if pncFive v.data then some v
              else if pncFour v.data then some v
              else none

/-- `replace(/,(?!\s)/g, ", ")`: a comma not followed by whitespace gets a
space inserted after it. -/
def fixCommas : List Char → List Char
  | [] => []
  | ',' :: r =>
    match r with
    | c :: _ => if isWsJS c then ',' :: fixCommas r else ',' :: ' ' :: fixCommas r
    | [] => [',', ' ']
  | c :: r => c :: fixCommas r

/-- A pending whitespace run flushes to a single space when its length is at
least two, otherwise to itself (`/\s{2,}/` leaves a lone whitespace char). -/
def flushWs (pend : List Char) : List Char :=
  if 2 ≤ pend.length then [' '] else pend

/-- Accumulate the current whitespace run in `pend`, flushing at each
non-whitespace character and at the end. -/
def collapseWsAux (pend : List Char) : List Char → List Char
  | [] => flushWs pend
  | c :: r =>
    if isWsJS c then collapseWsAux (pend ++ [c]) r
    else flushWs pend ++ c :: collapseWsAux [] r

/-- `replace(/\s{2,}/g, " ")`: each run of two or more whitespace characters
collapses to one space; a lone whitespace character is kept as is. -/
def collapseWs (l : List Char) : List Char := collapseWsAux [] l

/-- `String.prototype.trim` (on the embedded whitespace set). -/
def trimWs (l : List Char) : List Char :=
  ((l.dropWhile isWsJS).reverse.dropWhile isWsJS).reverse

/-- `cleanDescription` from `utils.ts`. -/
def cleanDescription (d : Option String) : Option String :=
  match d with
  | none => none
  | some v =>
    let cleaned := trimWs (collapseWs (fixCommas v.data))
    if cleaned.isEmpty then none else some (⟨cleaned⟩ : String)

/-! ### `parsePartsPage` on the flat cell sequence

`parsePartsPage` (`parser.ts` lines 417-547) loads the page, flattens
`table.top_cars` into the ordered list of `td` texts, and scans that flat
list. The embedding takes the flat list directly. -/

/-- One extracted part record (`ParsedPart` in `types.ts`). -/
structure ParsedPart where
  partNumber : String
  pnc : Option String
  description : Option String
  refNumber : Option String
  quantity : Option Int
  spec : Option String
  notes : Option String
  color : Option String
  modelDateRange : Option String
deriving DecidableEq

/-- Whether a scanned cell triggers the early exit of the date-range loop
(`parser.ts` line 496): another OEM-shaped cell that does not contain
"oem". -/
def isExitCell (s : String) : Bool := oemTest s && !containsLower s "oem"

/-- The date-range scan body, `parser.ts` lines 482-499: visit cell `j`
(`fuel` cells remain in the window `i+1 .. i+15`); empty cells are skipped,
a date-range match returns immediately, and an OEM-shaped non-header cell
past offset `i+6` stops the scan. -/
def dateScanAux (cells : List String) (i : Nat) : Nat → Nat → Option String
  | _, 0 => none
  | j, fuel + 1 =>
    if j < cells.length then
      let c := getCell cells j
      if c = "" then dateScanAux cells i (j + 1) fuel
      else
        match dateMatch c with
        | some m => some m
        | none =>
          if i + 6 < j && isExitCell c then none
          else dateScanAux cells i (j + 1) fuel
    else none

/-- The `modelDateRange` scan for the anchor at index `i`: cells `i+1`
through `i+15` (`j < min(i+16, length)`). -/
def dateScan (cells : List String) (i : Nat) : Option String :=
  dateScanAux cells i (i + 1) 15

/-- The fields read at fixed offsets around the anchor at index `i`, plus
the cleanup passes, `parser.ts` lines 464-533. -/
def buildPart (cells : List String) (i : Nat) : ParsedPart :=
  let cell := getCell cells i
  let refNumber := if 2 ≤ i then strOrNone (getCell cells (i - 2)) else none
  let pnc := if 1 ≤ i then strOrNone (getCell cells (i - 1)) else none
  let quantity :=
    match strOrNone (getCell cells (i + 1)) with
    | none => none
    | some q => zeroToNone (jsParseInt q)
  let description := strOrNone (getCell cells (i + 2))
  let specField := strOrNone (getCell cells (i + 3))
  let notesField := strOrNone (getCell cells (i + 4))
  let colorField := strOrNone (getCell cells (i + 5))
  { partNumber := cell
    pnc := cleanPnc pnc
    description := cleanDescription (cleanField description)
    refNumber := cleanField refNumber
    quantity := quantity
    spec := cleanField specField
    notes := cleanField notesField
    color := cleanField colorField
    modelDateRange := dateScan cells i }

/-- Processing of the cell at index `i`: the OEM-shape test, the header
skip, the `length < 5` guard (`parser.ts` line 501) and the record
construction. -/
def partAt (cells : List String) (i : Nat) : Option ParsedPart :=
  let cell := getCell cells i
  if oemTest cell then
    if isHeaderAnchor cell then none
    else if cell.length < 5 then none
    else some (buildPart cells i)
  else none

/-- `partAt` with the `length < 5` guard removed, used to show the guard is
unreachable. -/
def partAtNoGuard (cells : List String) (i : Nat) : Option ParsedPart :=
  let cell := getCell cells i
  if oemTest cell then
    if isHeaderAnchor cell then none
    else some (buildPart cells i)
  else none

/-- `parsePartsPage` restricted to its part-extraction result on the flat
cell list (the returned diagram name and image are URL plumbing outside the
claims). -/
def parsePartsCells (cells : List String) : List ParsedPart :=
  (List.range cells.length).filterMap (partAt cells)

/-- The same scan without the `length < 5` guard. -/
def parsePartsCellsNoGuard (cells : List String) : List ParsedPart :=
  (List.range cells.length).filterMap (partAtNoGuard cells)

/-! ### `slugify` (`utils.ts` lines 85-110) -/

/-- The Cyrillic-to-Latin transliteration table of `slugify`. -/
def cyrillicMap : List (Char × String) :=
  [('а', "a"), ('б', "b"), ('в', "v"), ('г', "g"), ('д', "d"), ('е', "e"),
   ('ё', "e"), ('ж', "zh"), ('з', "z"), ('и', "i"), ('й', "y"), ('к', "k"),
   ('л', "l"), ('м', "m"), ('н', "n"), ('о', "o"), ('п', "p"), ('р', "r"),
   ('с', "s"), ('т', "t"), ('у', "u"), ('ф', "f"), ('х', "kh"), ('ц', "ts"),
   ('ч', "ch"), ('ш', "sh"), ('щ', "shch"), ('ъ', ""), ('ы', "y"), ('ь', ""),
   ('э', "e"), ('ю', "yu"), ('я', "ya"),
   ('А', "a"), ('Б', "b"), ('В', "v"), ('Г', "g"), ('Д', "d"), ('Е', "e"),
   ('Ё', "e"), ('Ж', "zh"), ('З', "z"), ('И', "i"), ('Й', "y"), ('К', "k"),
   ('Л', "l"), ('М', "m"), ('Н', "n"), ('О', "o"), ('П', "p"), ('Р', "r"),
   ('С', "s"), ('Т', "t"), ('У', "u"), ('Ф', "f"), ('Х', "kh"), ('Ц', "ts"),
   ('Ч', "ch"), ('Ш', "sh"), ('Щ', "shch"), ('Ъ', ""), ('Ы', "y"), ('Ь', ""),
   ('Э', "e"), ('Ю', "yu"), ('Я', "ya")]

/-- `cyrillicMap[char] ?? char`. -/
def translitChar (c : Char) : List Char :=
  match cyrillicMap.find? (fun e => e.1 = c) with
  | some e => e.2.data
  | none => [c]

/-- Collapse runs of dashes to a single dash (the source's dash-run
replace; its preceding non-alphanumeric-run replace is embedded as a
character map whose runs this collapse merges, which composes to the same
result). -/
def collapseDash : List Char → List Char
  | [] => []
  | [c] => [c]
  | a :: b :: r =>
    if a = '-' && b = '-' then collapseDash (b :: r)
    else a :: collapseDash (b :: r)

/-- `replace(/^-|-$/g, "")`. -/
def trimDashes (l : List Char) : List Char :=
  ((l.dropWhile (· = '-')).reverse.dropWhile (· = '-')).reverse

/-- `slugify` from `utils.ts`: transliterate, lowercase, dash out
non-alphanumerics, collapse and trim dashes. -/
def slugify (text : String) : String :=
  let translit := text.data.flatMap translitChar
  let lowered := translit.map lowerChar
  let dashed := lowered.map (fun c => if isLowerAZ c || isDigit09 c then c else '-')
  ⟨trimDashes (collapseDash dashed)⟩

/-! ### `parseDetailListSections` (`parser.ts` lines 362-407)

A `td.detail-list` element reaches this function as its trimmed `h4` heading
text and the list of `href` attributes of its `a`/`area` descendants; the
optional diagram-image URL resolution is orthogonal to every claim and not
modelled. -/

/-- One raw `td.detail-list` element. -/
structure RawSection where
  heading : String
  hrefs : List String
deriving DecidableEq

/-- One parsed section (the `DetailListSection` interface, minus the image
URL). -/
structure DetailListSection where
  heading : String
  slug : String
  detailPageIds : List String
deriving DecidableEq

/-- After the digits of a detail id: consume `(?:,\d+)*` greedily, returning
the consumed group characters and the rest. The fuel is the input length
(each round consumes at least two characters). -/
def groupTailAux : Nat → List Char → List Char × List Char
  | 0, l => ([], l)
  | fuel + 1, l =>
    match l with
    | ',' :: r =>
      let ds := r.takeWhile isDigit09
      if ds.isEmpty then ([], l)
      else
        let (g, rest) := groupTailAux fuel (r.dropWhile isDigit09)
        (',' :: (ds ++ g), rest)
    | _ => ([], l)

/-- After `\/?`, the pattern requires `(?:\?|$)`. -/
def endsOk : List Char → Bool
  | [] => true
  | '?' :: _ => true
  | _ => false

/-- Match `(\d+(?:,\d+)*)\/?(?:\?|$)` on the text following a slash,
returning capture group 1. -/
def matchIdAt (l : List Char) : Option (List Char) :=
  let ds := l.takeWhile isDigit09
  if ds.isEmpty then none
  else
    let r := l.dropWhile isDigit09
    let (g, rest) := groupTailAux r.length r
    let ok := match rest with
      | '/' :: rr => endsOk rr
      | rr => endsOk rr
    if ok then some (ds ++ g) else none

/-- Leftmost search for `\/(\d+(?:,\d+)*)\/?(?:\?|$)`, returning capture
group 1 of the first match (`href.match(...)` then `match[1]`). -/
def extractIdFrom : List Char → Option (List Char)
  | [] => none
  | '/' :: r => matchIdAt r <|> extractIdFrom r
  | _ :: r => extractIdFrom r

/-- The detail-page id referenced by one href, when any. -/
def hrefDetailId (href : String) : Option String :=
  (extractIdFrom href.data).map (⟨·⟩)

/-- De-duplicate preserving first-occurrence order (the JavaScript `Set`
accumulation). -/
def dedupAux (seen : List String) : List String → List String
  | [] => []
  | x :: r =>
    if seen.contains x then dedupAux seen r
    else x :: dedupAux (x :: seen) r

/-- The detail-page ids of one section, de-duplicated within the section. -/
def sectionIds (s : RawSection) : List String :=
  dedupAux [] (s.hrefs.filterMap hrefDetailId)

/-- `parseDetailListSections`: sections without a heading, or whose slug is
empty, are skipped; the rest keep their heading, derived slug, and detail
ids. -/
def parseDetailListSections (secs : List RawSection) : List DetailListSection :=
  secs.filterMap fun s =>
    if s.heading = "" then none
    else
      let slug := slugify s.heading
      if slug = "" then none
      else some { heading := s.heading, slug := slug, detailPageIds := sectionIds s }

/-! ### The cross-diagram repair pass

`scripts/fix-multi-diagram-parts.ts` (`main`): after the per-path sections
have been matched by order to the stored diagrams (so each section carries
its `diagramId`; in this schema the subgroup id equals the diagram id), the
pass computes which detail ids appear in more than one section and inserts
the missing part rows with `INSERT OR IGNORE` under the parts table's
`UNIQUE(part_number, diagram_id)` constraint (`schema.ts`). -/

/-- One stored row of the `parts` table (the autoincrement `id` is not
part of any key the pass uses). -/
structure StoredPart where
  detail_page_id : Option String
  part_number : String
  pnc : Option String
  description : Option String
  ref_number : Option String
  quantity : Option Int
  spec : Option String
  notes : Option String
  color : Option String
  model_date_range : Option String
  diagram_id : String
  group_id : String
  subgroup_id : Option String
  replacement_part_number : Option String
deriving DecidableEq

/-- One section with its matched diagram id (`DiagramMapping` in the
script, with `subgroupId === diagramId`). -/
structure ScriptSection where
  diagramId : String
  detailPageIds : List String
deriving DecidableEq

/-- The `detailIdToDiagrams` JavaScript `Map`: updating an existing key
appends to its diagram list in place, a new key is appended at the end
(insertion order). -/
def upsertAppend (m : List (String × List String)) (k v : String) :
    List (String × List String) :=
  match m with
  | [] => [(k, [v])]
  | e :: t => if e.1 = k then (k, e.2 ++ [v]) :: t else e :: upsertAppend t k v

/-- Build `detailIdToDiagrams` over all sections in order. -/
def detailIdToDiagrams (sections : List ScriptSection) :
    List (String × List String) :=
  sections.foldl
    (fun m sec => sec.detailPageIds.foldl (fun m2 did => upsertAppend m2 did sec.diagramId) m)
    []

/-- Detail ids appearing in more than one section. -/
def sharedDetailIds (sections : List ScriptSection) :
    List (String × List String) :=
  (detailIdToDiagrams sections).filter (fun e => 1 < e.2.length)

/-- The `UNIQUE(part_number, diagram_id)` probe. -/
def partKeyExists (store : List StoredPart) (pn d : String) : Bool :=
  store.any (fun r => r.part_number = pn && r.diagram_id = d)

/-- `INSERT OR IGNORE INTO parts ...` under the unique key. -/
def insertOrIgnorePart (store : List StoredPart) (p : StoredPart) :
    List StoredPart :=
  if partKeyExists store p.part_number p.diagram_id then store else store ++ [p]

/-- The inserted copy of a row for a missing diagram: `diagram_id` and
`subgroup_id` are both set to the target diagram id, every other column is
copied. -/
def copyToDiagram (d : String) (p : StoredPart) : StoredPart :=
  { p with diagram_id := d, subgroup_id := some d }

/-- Repair one shared detail id: load its stored rows, find the sharing
diagrams that lack them, and insert the missing copies. -/
def repairSharedId (store : List StoredPart) (entry : String × List String) :
    List StoredPart :=
  let rows := store.filter (fun r => r.detail_page_id = some entry.1)
  if rows.isEmpty then store
  else
    let existing := rows.map (fun r => r.diagram_id)
    let missing := entry.2.filter (fun d => !(existing.contains d))
    missing.foldl
      (fun st d => rows.foldl (fun st2 p => insertOrIgnorePart st2 (copyToDiagram d p)) st)
      store

/-- The whole repair pass over one listing page's sections. -/
def repairPass (sections : List ScriptSection) (store : List StoredPart) :
    List StoredPart :=
  (sharedDetailIds sections).foldl repairSharedId store

/-- No two rows share the `(part_number, diagram_id)` key. -/
def PartKeyNodup (store : List StoredPart) : Prop :=
  store.Pairwise (fun a b => ¬(a.part_number = b.part_number ∧ a.diagram_id = b.diagram_id))

/-! ### The replacement-part merge

`migrateReplacesIdToReplacementPartNumber` (`schema.ts`): for every row
whose id is referenced by some row's `replaces_id`, copy the (first)
referencing row's part number into `replacement_part_number`; then delete
every row with `replaces_id` set. Both statements run only when at least
one row has `replaces_id` set, so a state with no unresolved references is
untouched. Only the columns the pass reads or writes are modelled; the
remaining columns ride along unchanged. -/

/-- A `parts` row in the pre-migration schema. -/
structure MigPartRow where
  id : Nat
  part_number : String
  replacement_part_number : Option String
  replaces_id : Option Nat
deriving DecidableEq

/-- The `UPDATE` statement applied to one row: rows referenced by some
`replaces_id` receive the first referencing row's part number. -/
def updReplacement (rows : List MigPartRow) (r : MigPartRow) : MigPartRow :=
  if rows.any (fun b => b.replaces_id = some r.id) then
    { r with
      replacement_part_number :=
        (rows.find? (fun b => b.replaces_id = some r.id)).map (fun b => b.part_number) }
  else r

/-- The merge pass: `UPDATE` then `DELETE`, both guarded by the existence
of a row with `replaces_id` set. -/
def mergeReplacesPass (rows : List MigPartRow) : List MigPartRow :=
  if rows.any (fun r => r.replaces_id.isSome) then
    (rows.map (updReplacement rows)).filter (fun r => r.replaces_id.isNone)
  else rows

/-! ### The rate-limited fetcher

`fetcher.ts` is not part of the provided sources; the numeric configuration
is (`DEFAULT_CONFIG` in `types.ts`). Delays are rationals (JavaScript
numbers on these values stay exact). -/

/-- The fetch tuning fields of `ScraperConfig`. -/
structure FetchConfig where
  initialDelay : ℚ
  minDelay : ℚ
  maxDelay : ℚ
  backoffMultiplier : ℚ
deriving DecidableEq

/-- The numeric fetch tuning of `DEFAULT_CONFIG` (`types.ts` lines
556-566): 3000 ms initial, 1000 ms min, 120000 ms max, 1.5 backoff. -/
def defaultFetchConfig : FetchConfig :=
  { initialDelay := 3000, minDelay := 1000, maxDelay := 120000,
    backoffMultiplier := 3 / 2 }

/-- Modelled from the spec: `fetcher.ts` (the `RateLimitedFetcher` class) is
missing from the sources. Spec section 4.2: "On HTTP 429 or transport
error, multiply `currentDelay` by `backoffMultiplier`, clamped to
`maxDelay`". -/
def backoffOnFailure (cfg : FetchConfig) (d : ℚ) : ℚ :=
  min (d * cfg.backoffMultiplier) cfg.maxDelay

/-- Modelled from the spec: one failing fetch call. The fetcher suspends
for the current delay before the fetch (first component), the call returns
a failure result rather than raising (second component, `false` = failure),
and the stored delay is multiplied and clamped (third component). -/
def fetchAttemptFail (cfg : FetchConfig) (d : ℚ) : ℚ × Bool × ℚ :=
  (d, false, backoffOnFailure cfg d)

/-- Modelled from the spec: the pre-fetch delay before the `n`-th fetch
when every previous fetch failed, starting from `initialDelay`. -/
def failDelays (cfg : FetchConfig) : Nat → ℚ
  | 0 => cfg.initialDelay
  | n + 1 => backoffOnFailure cfg (failDelays cfg n)

/-! ### The resumable crawl scheduler

Control flow from `Scraper.run` / `Scraper.processQueue`
(`scraper/index.ts` lines 51-145); the durable CrawlState store
(`db/queries.ts` is not among the sources) is modelled from the spec,
sections 3 and 4.1: a per-URL status table keyed by URL, with
`markUrlPending` / `markUrlCompleted` / `markUrlFailed` upserts and
`getPendingUrls` returning the URLs whose status is `pending`. Page
processing is abstracted to its persistence effect: an environment says,
per URL, whether the fetch succeeds, which records `processPage` persists,
and which outbound links it discovers. One iteration of `processQueue` is
split into its micro-steps (dequeue-and-check, fetch, persist-and-enqueue,
mark-completed) so that a crash can cut the run between any two durable
writes. -/

/-- CrawlState status values. -/
inductive UrlStatus
  | pending
  | completed
  | failed
deriving DecidableEq

/-- The durable per-URL status table, keyed by URL. -/
abbrev CrawlStates := List (String × UrlStatus)

/-- `getUrlStatus`: the status stored for a URL. -/
def getStatus (st : CrawlStates) (u : String) : Option UrlStatus :=
  (st.find? (fun e => e.1 = u)).map (fun e => e.2)

/-- A status upsert (`markUrlPending` / `markUrlCompleted` /
`markUrlFailed`): update the row keyed by the URL, or append a new row. -/
def setStatus : CrawlStates → String → UrlStatus → CrawlStates
  | [], u, s => [(u, s)]
  | e :: t, u, s => if e.1 = u then (u, s) :: t else e :: setStatus t u s

/-- `getPendingUrls`: the URLs whose stored status is `pending`. -/
def pendingUrls (st : CrawlStates) : List String :=
  (st.filter (fun e => e.2 = UrlStatus.pending)).map (fun e => e.1)

/-- The per-run environment: fetch outcome, records persisted by
`processPage`, and outbound links discovered by `processPage`. -/
structure CrawlEnv where
  fetchOk : String → Bool
  pageRecords : String → List String
  pageLinks : String → List String

/-- Where one `processQueue` iteration stands between durable writes. -/
inductive CrawlPhase
  | idle
  | fetching (url : String)
  | persisting (url : String)
  | marking (url : String)
deriving DecidableEq

/-- The scheduler state: durable status table and record store, the
in-memory queue, and the iteration phase. -/
structure CrawlMach where
  states : CrawlStates
  stored : List (String × String)
  queue : List String
  phase : CrawlPhase
deriving DecidableEq

/-- The link-enqueue loop at the end of `processPage`: each link with no
CrawlState yet is marked pending and pushed on the queue. -/
def enqueueLinks (links : List String) (p : CrawlStates × List String) :
    CrawlStates × List String :=
  links.foldl
    (fun q l => if getStatus q.1 l = none then (setStatus q.1 l UrlStatus.pending, q.2 ++ [l]) else q)
    p

/-- One micro-step of `processQueue`. Idle: dequeue the next URL and skip
it when its stored status is `completed`. Fetching: a failure is recorded
as `failed` and the loop continues; a success moves on to `processPage`.
Persisting: `processPage` appends the URL's extracted records to the
durable store and enqueues newly discovered links. Marking: only then is
the URL marked `completed`. -/
def stepRun (env : CrawlEnv) (m : CrawlMach) : CrawlMach :=
  match m.phase with
  | CrawlPhase.idle =>
    match m.queue with
    | [] => m
    | u :: rest =>
      if getStatus m.states u = some UrlStatus.completed then { m with queue := rest }
      else { m with queue := rest, phase := CrawlPhase.fetching u }
  | CrawlPhase.fetching u =>
    if env.fetchOk u then { m with phase := CrawlPhase.persisting u }
    else { m with states := setStatus m.states u UrlStatus.failed, phase := CrawlPhase.idle }
  | CrawlPhase.persisting u =>
    let stored := m.stored ++ (env.pageRecords u).map (fun r => (u, r))
    let sq := enqueueLinks (env.pageLinks u) (m.states, m.queue)
    { states := sq.1, stored := stored, queue := sq.2,
      phase := CrawlPhase.marking u }
  | CrawlPhase.marking u =>
    { m with states := setStatus m.states u UrlStatus.completed, phase := CrawlPhase.idle }

/-- Run `n` micro-steps. -/
def execSteps (env : CrawlEnv) : Nat → CrawlMach → CrawlMach
  | 0, m => m
  | n + 1, m => execSteps env n (stepRun env m)

/-- Crash and restart (`Scraper.run` resumption): the durable tables
survive, the in-memory queue is re-hydrated from the pending CrawlStates,
and the iteration restarts idle. -/
def restartMach (m : CrawlMach) : CrawlMach :=
  { states := m.states, stored := m.stored, queue := pendingUrls m.states,
    phase := CrawlPhase.idle }

/-- A URL's extracted records are all durably persisted. -/
def Persisted (env : CrawlEnv) (m : CrawlMach) (u : String) : Prop :=
  ∀ r ∈ env.pageRecords u, (u, r) ∈ m.stored

/-- The scheduler invariant: every `completed` URL is persisted, a URL
about to be marked is persisted, the status table has one row per URL, and
a URL being fetched is not `completed`. -/
def CrawlInv (env : CrawlEnv) (m : CrawlMach) : Prop :=
  (∀ u, getStatus m.states u = some UrlStatus.completed → Persisted env m u) ∧
  (∀ u, m.phase = CrawlPhase.marking u → Persisted env m u) ∧
  m.states.Pairwise (fun a b => a.1 ≠ b.1) ∧
  (∀ u, m.phase = CrawlPhase.fetching u → getStatus m.states u ≠ some UrlStatus.completed)

/-! ### Concrete inputs used by examples and witnesses -/

/-- The spec's worked cell sequence around anchor `MD123456`. -/
def demoCells : List String :=
  ["04403", "02878C", "MD123456", "2", "Bolt, Flange", "M8", "", "Black"]

/-- A cell sequence whose quantity cell parses to the integer 0. -/
def zeroQtyCells : List String :=
  ["04403", "02878C", "MD123456", "0", "Bolt, Flange", "M8", "", "Black"]

/-- A cell sequence with a second anchor at offset 7 and a date range
behind it. -/
def exitDemoCells : List String :=
  ["MD111111", "a", "b", "c", "d", "e", "f", "MD222222", "x", "2000.1-2001.2"]

/-- Listing sections: two distinct headings with colliding slugs plus one
heading whose slug is empty. -/
def collidingSections : List RawSection :=
  [{ heading := "A B", hrefs := [] },
   { heading := "A-B", hrefs := [] },
   { heading := "!!!", hrefs := [] }]

/-- Listing sections with distinct, non-empty slugs. -/
def goodSections : List RawSection :=
  [{ heading := "Left Side", hrefs := ["/delica_space_gear/x/y/g/s/700/"] },
   { heading := "Right Side", hrefs := ["/delica_space_gear/x/y/g/s/701/"] }]

/-- A stored part row sitting under diagram `d1` for detail page `700`. -/
def demoStoredPart : StoredPart :=
  { detail_page_id := some "700", part_number := "MD000001",
    pnc := some "02878C", description := some "Bolt", ref_number := some "04403",
    quantity := some 2, spec := some "M8", notes := none, color := none,
    model_date_range := none, diagram_id := "d1", group_id := "g",
    subgroup_id := some "d1", replacement_part_number := none }

/-- Two script sections sharing exactly detail id `700`. -/
def demoSections : List ScriptSection :=
  [{ diagramId := "d1", detailPageIds := ["700", "701"] },
   { diagramId := "d2", detailPageIds := ["700", "702"] }]

/-- Replaced part A of the merge scenario. -/
def rowA : MigPartRow :=
  { id := 10, part_number := "MD000001", replacement_part_number := none,
    replaces_id := none }

/-- Replacement part B of the merge scenario. -/
def rowB : MigPartRow :=
  { id := 11, part_number := "MD999999", replacement_part_number := none,
    replaces_id := some 10 }

/-- A crawl environment where every fetch succeeds, every page persists one
record, and no page links out. -/
def demoEnv : CrawlEnv :=
  { fetchOk := fun _ => true, pageRecords := fun _ => ["record"],
    pageLinks := fun _ => [] }

/-- A fresh scheduler state with one queued URL. -/
def demoMach : CrawlMach :=
  { states := [], stored := [], queue := ["seed"], phase := CrawlPhase.idle }

/-- The part record extracted from `demoCells`. -/
def demoPart : ParsedPart :=
  { partNumber := "MD123456", pnc := some "02878C",
    description := some "Bolt, Flange", refNumber := some "04403",
    quantity := some 2, spec := some "M8", notes := none,
    color := some "Black", modelDateRange := none }

/-- The part record extracted from `zeroQtyCells`: the quantity cell "0"
comes out as null. -/
def zeroQtyPart : ParsedPart := { demoPart with quantity := none }

/-! ## Theorems -/

theorem buildPart_partNumber (cells : List String) (i : Nat) :
    (buildPart cells i).partNumber = getCell cells i := rfl

theorem buildPart_quantity (cells : List String) (i : Nat) :
    (buildPart cells i).quantity =
      (match strOrNone (getCell cells (i + 1)) with
       | none => none
       | some q => zeroToNone (jsParseInt q)) := rfl

theorem oemAlt1_parts {l : List Char} (h : oemAlt1 l = true) :
    1 ≤ (l.takeWhile isUpperAZ).length ∧
      5 ≤ ((l.dropWhile isUpperAZ).takeWhile isDigit09).length ∧
      ((l.dropWhile isUpperAZ).dropWhile isDigit09).all isUpperDigit = true := by
  simp only [oemAlt1, Bool.and_eq_true, decide_eq_true_eq] at h
  tauto

theorem oemTest_six_le {s : String} (h : oemTest s = true) : 6 ≤ s.length := by
  rw [oemTest, Bool.or_eq_true] at h
  show 6 ≤ s.data.length
  rcases h with h1 | h2
  · obtain ⟨hls, hds, -⟩ := oemAlt1_parts h1
    have e1 := List.takeWhile_append_dropWhile (p := isUpperAZ) (l := s.data)
    have e2 := List.takeWhile_append_dropWhile (p := isDigit09)
      (l := s.data.dropWhile isUpperAZ)
    have l1 := congrArg List.length e1
    have l2 := congrArg List.length e2
    rw [List.length_append] at l1 l2
    omega
  · rcases hd : s.data with - | ⟨a, - | ⟨b, rest⟩⟩ <;> rw [hd] at h2
    · simp [oemAlt2] at h2
    · simp [oemAlt2] at h2
    · simp only [oemAlt2, Bool.and_eq_true, decide_eq_true_eq] at h2
      simp only [List.length_cons]
      omega

theorem partAt_eq_some {cells : List String} {i : Nat} {p : ParsedPart}
    (h : partAt cells i = some p) :
    p = buildPart cells i ∧ oemTest (getCell cells i) = true ∧
      isHeaderAnchor (getCell cells i) = false := by
  simp only [partAt] at h
  split at h
  case isFalse h1 => exact absurd h (by simp)
  case isTrue h1 =>
    split at h
    case isTrue h2 => exact absurd h (by simp)
    case isFalse h2 =>
      split at h
      case isTrue h3 => exact absurd h (by simp)
      case isFalse h3 =>
        refine ⟨(Option.some_inj.mp h).symm, h1, ?_⟩
        cases hb : isHeaderAnchor (getCell cells i)
        · rfl
        · exact absurd hb h2

theorem mem_parsePartsCells {cells : List String} {p : ParsedPart} :
    p ∈ parsePartsCells cells ↔ ∃ i, partAt cells i = some p := by
  constructor
  · intro hp
    obtain ⟨i, -, hi⟩ := List.mem_filterMap.mp hp
    exact ⟨i, hi⟩
  · rintro ⟨i, hi⟩
    refine List.mem_filterMap.mpr ⟨i, List.mem_range.mpr ?_, hi⟩
    by_contra hlen
    have : getCell cells i = "" := List.getD_eq_default _ _ (Nat.le_of_not_lt hlen)
    rw [partAt, this] at hi
    simp [oemTest, oemAlt1, oemAlt2] at hi

theorem zeroToNone_ne_some_zero (o : Option Int) : zeroToNone o ≠ some 0 := by
  rcases o with - | n
  · simp [zeroToNone]
  · by_cases hn : n = 0 <;> simp [zeroToNone, hn]


/-- Claim C2: in the flat cell sequence `..., "04403", "02878C",
"MD123456", "2", "Bolt, Flange", "M8", "", "Black"`, the anchor
`"MD123456"` yields exactly one part record whose reference number and PNC
are read two and one cells before the anchor and whose quantity,
description, spec, notes and color are read from the five cells after it in
that order: partNumber `MD123456`, pnc `02878C`, refNumber `04403`,
quantity 2, description `Bolt, Flange`, spec `M8`, notes null, color
`Black`. -/
theorem parsePartsCells_demo_offsets :
    parsePartsCells demoCells =
      [{ partNumber := "MD123456", pnc := some "02878C",
         description := some "Bolt, Flange", refNumber := some "04403",
         quantity := some 2, spec := some "M8", notes := none,
         color := some "Black", modelDateRange := none }] := by
  decide

/-- Claim C8: with the default configuration (initialDelay 3000,
backoffMultiplier 1.5, maxDelay 120000), three consecutive failures produce
pre-fetch delays 3000, 4500 and 6750 milliseconds, every delay in the
failure sequence stays at most maxDelay, and a failing call multiplies the
current delay by the backoff multiplier clamped to maxDelay while still
returning a failure result. -/
theorem fetcher_backoff_delays :
    failDelays defaultFetchConfig 0 = 3000 ∧
    failDelays defaultFetchConfig 1 = 4500 ∧
    failDelays defaultFetchConfig 2 = 6750 ∧
    (∀ n, failDelays defaultFetchConfig n ≤ defaultFetchConfig.maxDelay) ∧
    (∀ d : ℚ, fetchAttemptFail defaultFetchConfig d =
      (d, false, min (d * (3 / 2)) 120000)) := by
  have hstep : ∀ n, failDelays defaultFetchConfig (n + 1) =
      min (failDelays defaultFetchConfig n * (3 / 2)) 120000 := by
    intro n
    simp [failDelays, backoffOnFailure, defaultFetchConfig]
  have h0 : failDelays defaultFetchConfig 0 = 3000 := rfl
  have h1 : failDelays defaultFetchConfig 1 = 4500 := by
    rw [hstep, h0]
    norm_num [min_def]
  have h2 : failDelays defaultFetchConfig 2 = 6750 := by
    rw [hstep, h1]
    norm_num [min_def]
  refine ⟨h0, h1, h2, ?_, ?_⟩
  · intro n
    cases n with
    | zero => rw [h0]; norm_num [defaultFetchConfig]
    | succ n =>
      rw [hstep]
      exact min_le_right _ _
  · intro d
    simp [fetchAttemptFail, backoffOnFailure, defaultFetchConfig]

/-- Claim C3: no cell that matches the OEM shape but is literal
column-header text is ever emitted as a partNumber: every extracted part's
partNumber fails the header test (its lowercase form contains neither
"oem" nor "part number"), and in particular is never the literal header
"OEM part number". -/
theorem parse_partNumber_never_header (cells : List String) :
    ∀ p ∈ parsePartsCells cells,
      isHeaderAnchor p.partNumber = false ∧ p.partNumber ≠ "OEM part number" := by
  intro p hp
  obtain ⟨i, hi⟩ := mem_parsePartsCells.mp hp
  obtain ⟨hpb, -, hhdr⟩ := partAt_eq_some hi
  have hpn : p.partNumber = getCell cells i := by rw [hpb, buildPart_partNumber]
  refine ⟨hpn ▸ hhdr, ?_⟩
  intro hlit
  rw [hlit] at hpn
  rw [← hpn] at hhdr
  exact absurd hhdr (by decide)

/-- Witness for C3 at the concrete demo cells. -/
theorem parse_partNumber_never_header_witness :
    demoPart ∈ parsePartsCells demoCells ∧
      isHeaderAnchor demoPart.partNumber = false ∧
      demoPart.partNumber ≠ "OEM part number" :=
  ⟨by decide, parse_partNumber_never_header demoCells demoPart (by decide)⟩

/-- Claim C9: every part emitted by the flat-cell scan has a partNumber
matching the OEM anchor pattern, hence of length at least 6, and the
`length < 5` guard is unreachable: removing it does not change the result
on any input. -/
theorem parse_length_guard_unreachable (cells : List String) :
    parsePartsCellsNoGuard cells = parsePartsCells cells ∧
    ∀ p ∈ parsePartsCells cells,
      oemTest p.partNumber = true ∧ 6 ≤ p.partNumber.length := by
  constructor
  · have hfun : ∀ i, partAtNoGuard cells i = partAt cells i := by
      intro i
      simp only [partAt, partAtNoGuard]
      by_cases h1 : oemTest (getCell cells i) = true
      · by_cases h2 : isHeaderAnchor (getCell cells i) = true
        · simp [h1, h2]
        · have hlen : ¬ ((getCell cells i).length < 5) := by
            have := oemTest_six_le h1
            omega
          simp [h1, h2, hlen]
      · simp [h1]
    simp only [parsePartsCells, parsePartsCellsNoGuard, funext hfun]
  · intro p hp
    obtain ⟨i, hi⟩ := mem_parsePartsCells.mp hp
    obtain ⟨hpb, hoem, -⟩ := partAt_eq_some hi
    have hpn : p.partNumber = getCell cells i := by rw [hpb, buildPart_partNumber]
    rw [hpn]
    exact ⟨hoem, oemTest_six_le hoem⟩

/-- Witness for C9 at the concrete demo cells. -/
theorem parse_length_guard_unreachable_witness :
    demoPart ∈ parsePartsCells demoCells ∧
      oemTest demoPart.partNumber = true ∧ 6 ≤ demoPart.partNumber.length :=
  ⟨by decide, (parse_length_guard_unreachable demoCells).2 demoPart (by decide)⟩

/-- Claim C10: every emitted part's quantity is either null or a nonzero
integer; it is never the integer 0 (a quantity cell that parses to 0, or
does not parse at all, comes out as null). -/
theorem parse_quantity_null_or_nonzero (cells : List String) :
    ∀ p ∈ parsePartsCells cells,
      p.quantity = none ∨ ∃ n : Int, p.quantity = some n ∧ n ≠ 0 := by
  intro p hp
  obtain ⟨i, hi⟩ := mem_parsePartsCells.mp hp
  obtain ⟨hpb, -, -⟩ := partAt_eq_some hi
  have hq : p.quantity =
      (match strOrNone (getCell cells (i + 1)) with
       | none => none
       | some q => zeroToNone (jsParseInt q)) := by
    rw [hpb, buildPart_quantity]
  rcases hs : strOrNone (getCell cells (i + 1)) with - | q
  · rw [hs] at hq
    exact Or.inl hq
  · rw [hs] at hq
    have hq2 : p.quantity = zeroToNone (jsParseInt q) := hq
    rcases hz : zeroToNone (jsParseInt q) with - | n
    · rw [hz] at hq2
      exact Or.inl hq2
    · rw [hz] at hq2
      refine Or.inr ⟨n, hq2, ?_⟩
      intro h0
      rw [h0] at hz
      exact zeroToNone_ne_some_zero (jsParseInt q) hz

/-- Witness for C10 at the concrete cells whose quantity cell is "0". -/
theorem parse_quantity_null_or_nonzero_witness :
    zeroQtyPart ∈ parsePartsCells zeroQtyCells ∧
      (zeroQtyPart.quantity = none ∨
        ∃ n : Int, zeroQtyPart.quantity = some n ∧ n ≠ 0) :=
  ⟨by decide, parse_quantity_null_or_nonzero zeroQtyCells zeroQtyPart (by decide)⟩

theorem toNat_ofNat_small {n : Nat} (h : n < 55296) : (Char.ofNat n).toNat = n := by
  rw [Char.ofNat, dif_pos (Or.inl h)]
  rfl

theorem upper_toNat {x : Char} (h : isUpperAZ x = true) :
    65 ≤ x.toNat ∧ x.toNat ≤ 90 := by
  simp only [isUpperAZ, Bool.and_eq_true, decide_eq_true_eq] at h
  exact ⟨h.1, h.2⟩

theorem digit_toNat {x : Char} (h : isDigit09 x = true) :
    48 ≤ x.toNat ∧ x.toNat ≤ 57 := by
  simp only [isDigit09, Bool.and_eq_true, decide_eq_true_eq] at h
  exact ⟨h.1, h.2⟩

theorem lowerChar_ne_space {x : Char} (h : isUpperDigit x = true) :
    lowerChar x ≠ ' ' := by
  rw [isUpperDigit, Bool.or_eq_true] at h
  rcases h with hu | hd
  · rw [lowerChar, if_pos hu]
    intro he
    have h1 := upper_toNat hu
    have h2 : (Char.ofNat (x.toNat + 32)).toNat = x.toNat + 32 :=
      toNat_ofNat_small (by omega)
    rw [he] at h2
    have h3 : (' ').toNat = 32 := rfl
    omega
  · have hu : isUpperAZ x = false := by
      rcases hx : isUpperAZ x
      · rfl
      · exfalso
        have h1 := upper_toNat hx
        have h2 := digit_toNat hd
        omega
    rw [lowerChar, if_neg (by simp [hu])]
    intro he
    rw [he] at hd
    exact absurd hd (by decide)

theorem startsWithL_mem :
    ∀ {l pat : List Char}, startsWithL l pat = true → ∀ ch ∈ pat, ch ∈ l := by
  intro l pat
  induction pat generalizing l with
  | nil =>
    intro _ ch hch
    exact absurd hch (List.not_mem_nil ch)
  | cons p ps ih =>
    intro h ch hch
    cases l with
    | nil => simp [startsWithL] at h
    | cons c t =>
      simp only [startsWithL, Bool.and_eq_true, decide_eq_true_eq] at h
      obtain ⟨hc, hrest⟩ := h
      rcases List.mem_cons.mp hch with hch | hch
      · have hcc : ch = c := by rw [hch, hc]
        rw [hcc]
        exact List.mem_cons_self c t
      · exact List.mem_cons_of_mem _ (ih hrest ch hch)

theorem containsSubL_mem :
    ∀ {l pat : List Char}, containsSubL l pat = true → ∀ ch ∈ pat, ch ∈ l := by
  intro l
  induction l with
  | nil =>
    intro pat h ch hch
    rw [containsSubL, Bool.or_eq_true] at h
    rcases h with h | h
    · exact startsWithL_mem h ch hch
    · simp at h
  | cons c t ih =>
    intro pat h ch hch
    rw [containsSubL, Bool.or_eq_true] at h
    rcases h with h | h
    · exact startsWithL_mem h ch hch
    · exact List.mem_cons_of_mem _ (ih h ch hch)

theorem oemTest_upperDigit {s : String} (h : oemTest s = true) :
    ∀ c ∈ s.data, isUpperDigit c = true := by
  rw [oemTest, Bool.or_eq_true] at h
  intro c hc
  rcases h with h1 | h2
  · obtain ⟨-, -, hall⟩ := oemAlt1_parts h1
    have e1 := List.takeWhile_append_dropWhile (p := isUpperAZ) (l := s.data)
    rw [← e1] at hc
    rcases List.mem_append.mp hc with hc1 | hc1
    · simp [isUpperDigit, List.mem_takeWhile_imp hc1]
    · have e2 := List.takeWhile_append_dropWhile (p := isDigit09)
        (l := s.data.dropWhile isUpperAZ)
      rw [← e2] at hc1
      rcases List.mem_append.mp hc1 with hc2 | hc2
      · simp [isUpperDigit, List.mem_takeWhile_imp hc2]
      · exact List.all_eq_true.mp hall c hc2
  · rcases hd : s.data with - | ⟨a, - | ⟨b, rest⟩⟩ <;> rw [hd] at h2
    · simp [oemAlt2] at h2
    · simp [oemAlt2] at h2
    · simp only [oemAlt2, Bool.and_eq_true, decide_eq_true_eq] at h2
      obtain ⟨⟨⟨ha, hb⟩, -⟩, hall⟩ := h2
      rw [hd] at hc
      rcases List.mem_cons.mp hc with hca | hc
      · rw [hca]
        simp [isUpperDigit, ha]
      · rcases List.mem_cons.mp hc with hcb | hc
        · rw [hcb]
          simp [isUpperDigit, hb]
        · exact List.all_eq_true.mp hall c hc

theorem oem_no_space {s : String} (h : oemTest s = true) :
    ' ' ∉ (lowerStr s).data := by
  rw [lowerStr]
  intro hmem
  obtain ⟨x, hx, hlx⟩ := List.mem_map.mp hmem
  exact lowerChar_ne_space (oemTest_upperDigit h x hx) hlx

theorem oem_no_part_number {s : String} (h : oemTest s = true) :
    containsLower s "part number" = false := by
  rcases hx : containsLower s "part number"
  · rfl
  · exfalso
    have hmem : (' ' : Char) ∈ (lowerStr s).data :=
      containsSubL_mem hx ' ' (by decide)
    exact oem_no_space h hmem

theorem upperDigit_not_sep {c : Char} (h : isUpperDigit c = true) :
    isDateSep c = false := by
  rcases hc : isDateSep c
  · rfl
  · exfalso
    simp only [isDateSep, Bool.or_eq_true, decide_eq_true_eq] at hc
    rcases hc with (h1 | h1) | h1 <;> subst h1 <;> exact absurd h (by decide)

theorem dateRangeAt_none (l : List Char)
    (hl : ∀ c ∈ l, isUpperDigit c = true) : dateRangeAt l = none := by
  rcases l with - | ⟨a, - | ⟨b, - | ⟨c, - | ⟨d, - | ⟨e, t⟩⟩⟩⟩⟩
  · rfl
  · simp [dateRangeAt, fourDigits, reqC]
  · simp [dateRangeAt, fourDigits, reqC]
  · simp [dateRangeAt, fourDigits, reqC]
  · simp [dateRangeAt, fourDigits, reqC]
  · have he : isDateSep e = false :=
      upperDigit_not_sep (hl e (by simp))
    simp [dateRangeAt, fourDigits, reqC, he]

theorem dateSearch_none (l : List Char)
    (hl : ∀ c ∈ l, isUpperDigit c = true) : dateSearch l = none := by
  induction l with
  | nil => rfl
  | cons a t ih =>
    rw [dateSearch, dateRangeAt_none _ hl]
    exact ih (fun c hc => hl c (List.mem_cons_of_mem _ hc))

theorem dateMatch_none_oem {s : String} (h : oemTest s = true) :
    dateMatch s = none := by
  rw [dateMatch, dateSearch_none s.data (oemTest_upperDigit h)]
  rfl

theorem exitCell_oem {s : String} (hx : isExitCell s = true) :
    oemTest s = true := by
  rw [isExitCell, Bool.and_eq_true] at hx
  exact hx.1

theorem oem_ne_empty {s : String} (h : oemTest s = true) : s ≠ "" := by
  intro he
  rw [he] at h
  exact absurd h (by decide)

theorem getCell_take {cells : List String} {k j : Nat} (hjk : j < k) :
    getCell (cells.take k) j = getCell cells j := by
  induction cells generalizing k j with
  | nil => simp [getCell]
  | cons a t ih =>
    cases k with
    | zero => omega
    | succ k =>
      cases j with
      | zero => rfl
      | succ j =>
        simp only [List.take_succ_cons, getCell, List.getD_cons_succ]
        exact ih (by omega)

theorem dateScanAux_stop {cells : List String} {i k : Nat}
    (hik : i + 6 < k) (hk : k < cells.length)
    (hx : isExitCell (getCell cells k) = true) :
    ∀ fuel j, j ≤ k →
      dateScanAux cells i j fuel = dateScanAux (cells.take k) i j fuel := by
  intro fuel
  induction fuel with
  | zero =>
    intro j hj
    rfl
  | succ fuel ih =>
    intro j hj
    rcases Nat.lt_or_eq_of_le hj with hjk | hjk
    · have hlen1 : j < cells.length := lt_trans hjk hk
      have hlen2 : j < (cells.take k).length := by
        rw [List.length_take]
        omega
      simp only [dateScanAux, if_pos hlen1, if_pos hlen2, getCell_take hjk,
        ih (j + 1) (by omega)]
    · subst hjk
      have hoem := exitCell_oem hx
      have hne := oem_ne_empty hoem
      have hdm := dateMatch_none_oem hoem
      have hlen2 : ¬ j < (cells.take j).length := by
        rw [List.length_take]
        omega
      simp only [dateScanAux, if_pos hk, if_neg hlen2, if_neg hne, hdm]
      simp [hik, hx]

theorem dateScanAux_window (cells : List String) (i : Nat) :
    ∀ fuel j, j + fuel ≤ i + 16 →
      dateScanAux cells i j fuel = dateScanAux (cells.take (i + 16)) i j fuel := by
  intro fuel
  induction fuel with
  | zero =>
    intro j hj
    rfl
  | succ fuel ih =>
    intro j hj
    have hj16 : j < i + 16 := by omega
    by_cases hlen1 : j < cells.length
    · have hlen2 : j < (cells.take (i + 16)).length := by
        rw [List.length_take]
        omega
      simp only [dateScanAux, if_pos hlen1, if_pos hlen2, getCell_take hj16,
        ih (j + 1) (by omega)]
    · have hlen2 : ¬ j < (cells.take (i + 16)).length := by
        rw [List.length_take]
        omega
      simp only [dateScanAux, if_neg hlen1, if_neg hlen2]

/-- Claim C4: the modelDateRange scan for the anchor at index `i` examines
only cells `i+1` through `i+15` (truncating the input past the window does
not change its result), and when a cell past the minimum offset `i+6` is
another OEM-shaped non-header cell, the scan's result is already determined
by the cells before it (truncating there changes nothing, so no date range
of the next record bleeds into the current one); for an OEM-shaped cell,
the code's exit test "does not contain oem" coincides with "is not header
text". -/
theorem dateScan_window_and_early_exit :
    (∀ (cells : List String) (i : Nat),
      dateScan cells i = dateScan (cells.take (i + 16)) i) ∧
    (∀ (cells : List String) (i k : Nat), i + 6 < k → k ≤ i + 15 →
      k < cells.length → isExitCell (getCell cells k) = true →
      dateScan cells i = dateScan (cells.take k) i) ∧
    (∀ s : String, oemTest s = true →
      (isExitCell s = true ↔ isHeaderAnchor s = false)) := by
  refine ⟨?_, ?_, ?_⟩
  · intro cells i
    exact dateScanAux_window cells i 15 (i + 1) (by omega)
  · intro cells i k hik hk15 hk hx
    exact dateScanAux_stop hik hk hx 15 (i + 1) (by omega)
  · intro s hoem
    simp [isExitCell, isHeaderAnchor, hoem, oem_no_part_number hoem,
      Bool.not_eq_true']

/-- Witness for C4: a concrete window with a second anchor at offset 7 and
a date-range cell behind it. -/
theorem dateScan_window_and_early_exit_witness :
    (0 + 6 < 7 ∧ 7 ≤ 0 + 15 ∧ 7 < exitDemoCells.length ∧
      isExitCell (getCell exitDemoCells 7) = true) ∧
    dateScan exitDemoCells 0 = dateScan (exitDemoCells.take 7) 0 :=
  ⟨⟨by decide, by decide, by decide, by decide⟩,
    dateScan_window_and_early_exit.2.1 exitDemoCells 0 7 (by decide) (by decide)
      (by decide) (by decide)⟩

/-- Claim C5 counterexample: a page with three distinct headed sections for
which `parseDetailListSections` returns only two sections, with equal
slugs — the claim's "exactly N sections" and "pairwise distinct slugs" both
fail (headings "A B" and "A-B" collide to slug "a-b"; heading "!!!" has an
empty slug and is dropped). -/
theorem detailListSections_slug_collision :
    (∀ s ∈ collidingSections, s.heading ≠ "") ∧
    (collidingSections.map RawSection.heading).Nodup ∧
    collidingSections.length = 3 ∧
    (parseDetailListSections collidingSections).length = 2 ∧
    (parseDetailListSections collidingSections).map DetailListSection.slug =
      ["a-b", "a-b"] ∧
    ¬ ((parseDetailListSections collidingSections).map
        DetailListSection.slug).Nodup := by
  decide

theorem parseDetailListSections_eq_map {secs : List RawSection}
    (hhead : ∀ s ∈ secs, s.heading ≠ "")
    (hslug : ∀ s ∈ secs, slugify s.heading ≠ "") :
    parseDetailListSections secs =
      secs.map (fun s =>
        { heading := s.heading, slug := slugify s.heading,
          detailPageIds := sectionIds s }) := by
  induction secs with
  | nil => rfl
  | cons s rest ih =>
    have h1 : s.heading ≠ "" := hhead s (List.mem_cons_self s rest)
    have h2 : slugify s.heading ≠ "" := hslug s (List.mem_cons_self s rest)
    simp only [parseDetailListSections, List.filterMap_cons, if_neg h1, if_neg h2]
    rw [List.map_cons]
    congr 1
    exact ih (fun t ht => hhead t (List.mem_cons_of_mem _ ht))
      (fun t ht => hslug t (List.mem_cons_of_mem _ ht))

/-- Claim C5 (amended): on a listing page whose headed sections have
non-empty slugified headings that are pairwise distinct, the parser returns
exactly N sections, each section's slug equal to the (deterministic)
slugification of its heading and non-empty, and the N slugs pairwise
distinct. (Unamended, the claim fails when a heading slugifies to the empty
string, or when two distinct headings slugify to the same slug.) -/
theorem detailListSections_count_and_slugs (secs : List RawSection)
    (hhead : ∀ s ∈ secs, s.heading ≠ "")
    (hslug : ∀ s ∈ secs, slugify s.heading ≠ "")
    (hnodup : (secs.map (fun s => slugify s.heading)).Nodup) :
    (parseDetailListSections secs).length = secs.length ∧
    (∀ t ∈ parseDetailListSections secs,
      t.slug = slugify t.heading ∧ t.slug ≠ "") ∧
    ((parseDetailListSections secs).map DetailListSection.slug).Nodup := by
  have hmap := parseDetailListSections_eq_map hhead hslug
  refine ⟨by rw [hmap, List.length_map], ?_, ?_⟩
  · intro t ht
    rw [hmap] at ht
    obtain ⟨s, hs, hts⟩ := List.mem_map.mp ht
    constructor
    · rw [← hts]
    · rw [← hts]
      exact hslug s hs
  · rw [hmap, List.map_map]
    exact hnodup

/-- Witness for C5's amended statement at two well-behaved sections. -/
theorem detailListSections_count_and_slugs_witness :
    ((∀ s ∈ goodSections, s.heading ≠ "") ∧
      (∀ s ∈ goodSections, slugify s.heading ≠ "") ∧
      (goodSections.map (fun s => slugify s.heading)).Nodup) ∧
    ((parseDetailListSections goodSections).length = goodSections.length ∧
      (∀ t ∈ parseDetailListSections goodSections,
        t.slug = slugify t.heading ∧ t.slug ≠ "") ∧
      ((parseDetailListSections goodSections).map DetailListSection.slug).Nodup) :=
  ⟨⟨by decide, by decide, by decide⟩,
    detailListSections_count_and_slugs goodSections (by decide) (by decide)
      (by decide)⟩

theorem mergeReplacesPass_no_refs {rows : List MigPartRow}
    (h : ∀ r ∈ rows, r.replaces_id = none) : mergeReplacesPass rows = rows := by
  rw [mergeReplacesPass, if_neg]
  intro hany
  obtain ⟨r, hr, hs⟩ := List.any_eq_true.mp hany
  rw [h r hr] at hs
  exact absurd hs (by decide)

/-- Claim C7: when the store contains a part A and a part B that carries
the (unique) "replaces" reference to A, with B's part number "MD999999",
one run of the merge pass yields A with replacementPartNumber "MD999999",
no row with a replaces reference survives (so B is gone), and running the
pass on any state with no unresolved references (in particular re-running
it) changes nothing. -/
theorem merge_replacement_scenario (rows : List MigPartRow) (A B : MigPartRow)
    (hA : A ∈ rows) (hAr : A.replaces_id = none)
    (hB : B ∈ rows) (hBr : B.replaces_id = some A.id)
    (hBpn : B.part_number = "MD999999")
    (huniq : ∀ b ∈ rows, b.replaces_id = some A.id → b = B) :
    { A with replacement_part_number := some "MD999999" } ∈ mergeReplacesPass rows ∧
    B ∉ mergeReplacesPass rows ∧
    (∀ r ∈ mergeReplacesPass rows, r.replaces_id = none) ∧
    mergeReplacesPass (mergeReplacesPass rows) = mergeReplacesPass rows ∧
    (∀ rows2 : List MigPartRow, (∀ r ∈ rows2, r.replaces_id = none) →
      mergeReplacesPass rows2 = rows2) := by
  have hany : rows.any (fun r => r.replaces_id.isSome) = true :=
    List.any_eq_true.mpr ⟨B, hB, by rw [hBr]; rfl⟩
  have hpass : mergeReplacesPass rows =
      (rows.map (updReplacement rows)).filter (fun r => r.replaces_id.isNone) := by
    rw [mergeReplacesPass, if_pos hany]
  have hex : rows.any (fun b => b.replaces_id = some A.id) = true :=
    List.any_eq_true.mpr ⟨B, hB, by simp [hBr]⟩
  have hfind : rows.find? (fun b => b.replaces_id = some A.id) = some B := by
    rcases hf : rows.find? (fun b => b.replaces_id = some A.id) with - | b
    · exfalso
      have := List.find?_eq_none.mp hf B hB
      simp [hBr] at this
    · have hb1 := List.find?_some hf
      have hb2 := List.mem_of_find?_eq_some hf
      rw [decide_eq_true_eq] at hb1
      rw [huniq b hb2 hb1] at hf
      exact hf
  have hupdA : updReplacement rows A =
      { A with replacement_part_number := some "MD999999" } := by
    rw [updReplacement, if_pos hex, hfind]
    simp [hBpn]
  have hall : ∀ r ∈ mergeReplacesPass rows, r.replaces_id = none := by
    intro r hr
    rw [hpass] at hr
    have := (List.mem_filter.mp hr).2
    exact Option.isNone_iff_eq_none.mp (by exact this)
  refine ⟨?_, ?_, hall, ?_, fun rows2 h => mergeReplacesPass_no_refs h⟩
  · rw [hpass]
    refine List.mem_filter.mpr ⟨?_, ?_⟩
    · rw [← hupdA]
      exact List.mem_map_of_mem (updReplacement rows) hA
    · show ({ A with replacement_part_number := some "MD999999" } :
        MigPartRow).replaces_id.isNone = true
      rw [show ({ A with replacement_part_number := some "MD999999" } :
        MigPartRow).replaces_id = A.replaces_id from rfl, hAr]
      rfl
  · intro hmem
    have := hall B hmem
    rw [hBr] at this
    exact absurd this (by simp)
  · exact mergeReplacesPass_no_refs hall

/-- Witness for C7 at the concrete two-row store. -/
theorem merge_replacement_scenario_witness :
    (rowA ∈ [rowA, rowB] ∧ rowA.replaces_id = none ∧
      rowB ∈ [rowA, rowB] ∧ rowB.replaces_id = some rowA.id ∧
      rowB.part_number = "MD999999" ∧
      (∀ b ∈ [rowA, rowB], b.replaces_id = some rowA.id → b = rowB)) ∧
    ({ rowA with replacement_part_number := some "MD999999" } ∈
        mergeReplacesPass [rowA, rowB] ∧
      rowB ∉ mergeReplacesPass [rowA, rowB] ∧
      (∀ r ∈ mergeReplacesPass [rowA, rowB], r.replaces_id = none) ∧
      mergeReplacesPass (mergeReplacesPass [rowA, rowB]) =
        mergeReplacesPass [rowA, rowB] ∧
      (∀ rows2 : List MigPartRow, (∀ r ∈ rows2, r.replaces_id = none) →
        mergeReplacesPass rows2 = rows2)) :=
  ⟨⟨by decide, by decide, by decide, by decide, by decide, by decide⟩,
    merge_replacement_scenario [rowA, rowB] rowA rowB (by decide) (by decide)
      (by decide) (by decide) (by decide) (by decide)⟩

theorem upsertAppend_not_mem {m : List (String × List String)} {k : String}
    (v : String) (hk : k ∉ m.map Prod.fst) :
    upsertAppend m k v = m ++ [(k, [v])] := by
  induction m with
  | nil => rfl
  | cons e t ih =>
    rw [List.map_cons, List.mem_cons] at hk
    push_neg at hk
    rw [upsertAppend, if_neg (fun he => hk.1 he.symm)]
    rw [ih hk.2]
    rfl

theorem upsertAppend_append_left {m m2 : List (String × List String)}
    {k : String} (v : String) (hk : k ∈ m.map Prod.fst) :
    upsertAppend (m ++ m2) k v = upsertAppend m k v ++ m2 := by
  induction m with
  | nil => exact absurd hk (List.not_mem_nil k)
  | cons e t ih =>
    by_cases he : e.1 = k
    · rw [List.cons_append, upsertAppend, if_pos he, upsertAppend, if_pos he]
      rfl
    · rw [List.map_cons, List.mem_cons] at hk
      rcases hk with hk | hk
      · exact absurd hk.symm he
      · rw [List.cons_append, upsertAppend, if_neg he, upsertAppend, if_neg he,
          ih hk]
        rfl

theorem upsertAppend_map_single {ids : List String} {D d1 d2 : String}
    (h : ids.Nodup) (hD : D ∈ ids) :
    upsertAppend (ids.map (fun id => (id, [d1]))) D d2 =
      ids.map (fun id => (id, if id = D then [d1, d2] else [d1])) := by
  induction ids with
  | nil => exact absurd hD (List.not_mem_nil D)
  | cons a rest ih =>
    rw [List.nodup_cons] at h
    by_cases ha : a = D
    · subst ha
      rw [List.map_cons, upsertAppend, if_pos rfl, List.map_cons, if_pos rfl]
      have htail : rest.map (fun id => (id, if id = a then [d1, d2] else [d1])) =
          rest.map (fun id => (id, [d1])) := by
        apply List.map_congr_left
        intro x hx
        have hxD : x ≠ a := fun hxe => h.1 (hxe ▸ hx)
        rw [if_neg hxD]
      rw [htail]
      rfl
    · have hDrest : D ∈ rest := by
        rcases List.mem_cons.mp hD with hDa | hDr
        · exact absurd hDa.symm ha
        · exact hDr
      rw [List.map_cons, upsertAppend, if_neg ha, List.map_cons, if_neg ha,
        ih h.2 hDrest]

theorem foldl_upsert_fresh {ids : List String}
    {m : List (String × List String)} {v : String}
    (h : ids.Nodup) (hf : ∀ id ∈ ids, id ∉ m.map Prod.fst) :
    ids.foldl (fun m2 did => upsertAppend m2 did v) m =
      m ++ ids.map (fun id => (id, [v])) := by
  induction ids generalizing m with
  | nil => simp
  | cons a rest ih =>
    rw [List.nodup_cons] at h
    rw [List.foldl_cons,
      upsertAppend_not_mem v (hf a (List.mem_cons_self a rest))]
    rw [ih h.2]
    · simp
    · intro id hid
      rw [List.map_append, List.mem_append]
      push_neg
      refine ⟨hf id (List.mem_cons_of_mem _ hid), ?_⟩
      intro hc
      simp only [List.map_cons, List.map_nil, List.mem_singleton] at hc
      exact h.1 (hc ▸ hid)

theorem filter_eq_single {l : List String} {D : String}
    (h : l.Nodup) (hD : D ∈ l) :
    l.filter (fun x => x = D) = [D] := by
  induction l with
  | nil => exact absurd hD (List.not_mem_nil D)
  | cons a rest ih =>
    rw [List.nodup_cons] at h
    by_cases ha : a = D
    · rw [List.filter_cons_of_pos (by simp [ha])]
      have hrest : rest.filter (fun x => x = D) = [] := by
        rw [List.filter_eq_nil_iff]
        intro x hx
        simp only [decide_eq_true_eq]
        intro hxD
        exact h.1 ((hxD.trans ha.symm) ▸ hx)
      rw [hrest, ha]
    · rw [List.filter_cons_of_neg (by simp [ha])]
      have hDrest : D ∈ rest := by
        rcases List.mem_cons.mp hD with hDa | hDr
        · exact absurd hDa.symm ha
        · exact hDr
      exact ih h.2 hDrest

theorem sharedDetailIds_scenario {ids1 ids2 : List String} {D d1 d2 : String}
    (h1 : ids1.Nodup) (h2 : ids2.Nodup) (hD1 : D ∈ ids1) (hD2 : D ∈ ids2)
    (honly : ∀ x ∈ ids1, x ∈ ids2 → x = D) :
    sharedDetailIds
      [{ diagramId := d1, detailPageIds := ids1 },
       { diagramId := d2, detailPageIds := ids2 }] = [(D, [d1, d2])] := by
  obtain ⟨pre, post, hsplit⟩ := List.append_of_mem hD2
  subst hsplit
  rcases List.nodup_append.mp h2 with ⟨hpre_nd, hdpost_nd, hdisj⟩
  rcases List.nodup_cons.mp hdpost_nd with ⟨hDpost, hpost_nd⟩
  have hDpre : D ∉ pre := fun hc => hdisj hc (List.mem_cons_self D post)
  have hkeys1 : (ids1.map (fun id => (id, [d1]))).map Prod.fst = ids1 := by
    simp [Function.comp_def]
  have e0 : detailIdToDiagrams
      [{ diagramId := d1, detailPageIds := ids1 },
       { diagramId := d2, detailPageIds := pre ++ D :: post }] =
      (pre ++ D :: post).foldl (fun m2 did => upsertAppend m2 did d2)
        (ids1.foldl (fun m2 did => upsertAppend m2 did d1) []) := by
    simp [detailIdToDiagrams]
  have e1 : ids1.foldl (fun m2 did => upsertAppend m2 did d1) [] =
      ids1.map (fun id => (id, [d1])) := by
    have h := foldl_upsert_fresh (m := []) (v := d1) h1
      (by intro id hid; simp)
    simpa using h
  have hfresh1 : ∀ id ∈ pre,
      id ∉ (ids1.map (fun id => (id, [d1]))).map Prod.fst := by
    intro id hid
    rw [hkeys1]
    intro hc
    have hidD := honly id hc (List.mem_append_left _ hid)
    exact hDpre (hidD ▸ hid)
  have hfresh2 : ∀ id ∈ post,
      id ∉ ((ids1.map (fun id => (id, if id = D then [d1, d2] else [d1])) ++
        pre.map (fun id => (id, [d2]))).map Prod.fst) := by
    intro id hid
    rw [List.map_append, List.mem_append]
    push_neg
    constructor
    · have hk : (ids1.map
          (fun id => (id, if id = D then [d1, d2] else [d1]))).map Prod.fst =
          ids1 := by simp [Function.comp_def]
      rw [hk]
      intro hc
      have hidD := honly id hc
        (List.mem_append_right _ (List.mem_cons_of_mem _ hid))
      exact hDpost (hidD ▸ hid)
    · have hk : (pre.map (fun id => (id, [d2]))).map Prod.fst = pre := by
        simp [Function.comp_def]
      rw [hk]
      intro hc
      exact hdisj hc (List.mem_cons_of_mem _ hid)
  have e2 : (pre ++ D :: post).foldl (fun m2 did => upsertAppend m2 did d2)
        (ids1.map (fun id => (id, [d1]))) =
      (ids1.map (fun id => (id, if id = D then [d1, d2] else [d1])) ++
        pre.map (fun id => (id, [d2]))) ++ post.map (fun id => (id, [d2])) := by
    rw [List.foldl_append, foldl_upsert_fresh hpre_nd hfresh1, List.foldl_cons,
      upsertAppend_append_left d2 (by rw [hkeys1]; exact hD1),
      upsertAppend_map_single h1 hD1, foldl_upsert_fresh hpost_nd hfresh2]
  have hfm1 : (ids1.map
        (fun id => (id, if id = D then [d1, d2] else [d1]))).filter
        (fun e => 1 < e.2.length) = [(D, [d1, d2])] := by
    rw [List.filter_map]
    have hcong : ids1.filter
        ((fun e : String × List String => decide (1 < e.2.length)) ∘
          (fun id => (id, if id = D then [d1, d2] else [d1]))) =
        ids1.filter (fun x => x = D) := by
      apply List.filter_congr
      intro a _
      by_cases haD : a = D <;> simp [haD]
    rw [hcong, filter_eq_single h1 hD1]
    simp
  have hfm2 : (pre.map (fun id => (id, [d2]))).filter
      (fun e => 1 < e.2.length) = [] := by
    rw [List.filter_map]
    have hcong : pre.filter
        ((fun e : String × List String => decide (1 < e.2.length)) ∘
          (fun id => (id, [d2]))) = pre.filter (fun _ => false) := by
      apply List.filter_congr
      intro a _
      simp
    rw [hcong, List.filter_false]
    rfl
  have hfm3 : (post.map (fun id => (id, [d2]))).filter
      (fun e => 1 < e.2.length) = [] := by
    rw [List.filter_map]
    have hcong : post.filter
        ((fun e : String × List String => decide (1 < e.2.length)) ∘
          (fun id => (id, [d2]))) = post.filter (fun _ => false) := by
      apply List.filter_congr
      intro a _
      simp
    rw [hcong, List.filter_false]
    rfl
  rw [sharedDetailIds, e0, e1, e2, List.filter_append, List.filter_append,
    hfm1, hfm2, hfm3]
  rfl

theorem repairSharedId_insert {store : List StoredPart} {P : StoredPart}
    {D d1 d2 : String}
    (hrows : store.filter (fun r => r.detail_page_id = some D) = [P])
    (hPd : P.diagram_id = d1) (hnd : d1 ≠ d2)
    (hmiss : ∀ r ∈ store,
      ¬ (r.part_number = P.part_number ∧ r.diagram_id = d2)) :
    repairSharedId store (D, [d1, d2]) = store ++ [copyToDiagram d2 P] := by
  have hkey : partKeyExists store (copyToDiagram d2 P).part_number
      (copyToDiagram d2 P).diagram_id = false := by
    rcases hh : partKeyExists store (copyToDiagram d2 P).part_number
      (copyToDiagram d2 P).diagram_id
    · rfl
    · exfalso
      obtain ⟨r, hr, hp⟩ := List.any_eq_true.mp hh
      rw [Bool.and_eq_true, decide_eq_true_eq, decide_eq_true_eq] at hp
      exact hmiss r hr ⟨hp.1, hp.2⟩
  have hc2 : ([d1].contains d2) = false := by
    simp [Ne.symm hnd]
  simp only [repairSharedId]
  rw [hrows]
  simp only [List.isEmpty_cons, List.map_cons, List.map_nil, hPd,
    Bool.false_eq_true, if_false]
  have hmissing : [d1, d2].filter (fun d => !([d1].contains d)) = [d2] := by
    rw [List.filter_cons_of_neg (by simp), List.filter_cons_of_pos
      (by rw [hc2]; rfl)]
    rfl
  rw [hmissing, List.foldl_cons, List.foldl_nil, List.foldl_cons,
    List.foldl_nil, insertOrIgnorePart, hkey]
  rfl

theorem repairSharedId_covered {store : List StoredPart} {D : String}
    {ds : List String}
    (hcov : ∀ d ∈ ds, d ∈ (store.filter
      (fun r => r.detail_page_id = some D)).map (fun r => r.diagram_id)) :
    repairSharedId store (D, ds) = store := by
  rcases hre : store.filter (fun r => r.detail_page_id = some D) with - | ⟨Q, rest⟩
  · simp only [repairSharedId]
    rw [hre]
    rfl
  · simp only [repairSharedId]
    rw [hre]
    simp only [List.isEmpty_cons, Bool.false_eq_true, if_false]
    have hmissing : ds.filter
        (fun d => !((Q :: rest).map (fun r => r.diagram_id)).contains d) = [] := by
      rw [List.filter_eq_nil_iff]
      intro d hd
      have hmem := hcov d hd
      rw [hre] at hmem
      simp only [List.contains, List.elem_eq_mem, hmem, decide_True,
        Bool.not_true]
      exact Bool.false_ne_true
    rw [hmissing, List.foldl_nil]

/-- Claim C6: for a listing page with two sections that share exactly
detail id `D` (each section's id list duplicate-free, as the parser
produces them), distinct diagram ids `d1 ≠ d2`, and a store whose only row
for `D` is `P` under the first diagram with no row for `P`'s part number
under the second, one run of the cross-diagram repair pass appends exactly
the missing copy of `P` under `d2` (leaving every existing row, in
particular the first diagram's, unchanged), a second run inserts nothing,
and the `(part_number, diagram_id)` key stays duplicate-free. -/
theorem cross_diagram_repair (store : List StoredPart) (P : StoredPart)
    (ids1 ids2 : List String) (D d1 d2 : String)
    (h1 : ids1.Nodup) (h2 : ids2.Nodup) (hD1 : D ∈ ids1) (hD2 : D ∈ ids2)
    (honly : ∀ x ∈ ids1, x ∈ ids2 → x = D)
    (hnd : d1 ≠ d2)
    (hrows : store.filter (fun r => r.detail_page_id = some D) = [P])
    (hPd : P.diagram_id = d1)
    (hmiss : ∀ r ∈ store,
      ¬ (r.part_number = P.part_number ∧ r.diagram_id = d2))
    (hkeyn : PartKeyNodup store) :
    repairPass
      [{ diagramId := d1, detailPageIds := ids1 },
       { diagramId := d2, detailPageIds := ids2 }] store =
      store ++ [copyToDiagram d2 P] ∧
    repairPass
      [{ diagramId := d1, detailPageIds := ids1 },
       { diagramId := d2, detailPageIds := ids2 }]
      (store ++ [copyToDiagram d2 P]) = store ++ [copyToDiagram d2 P] ∧
    PartKeyNodup (store ++ [copyToDiagram d2 P]) := by
  have hsh := @sharedDetailIds_scenario ids1 ids2 D d1 d2 h1 h2 hD1 hD2 honly
  have hPdet : P.detail_page_id = some D := by
    have hPmem : P ∈ store.filter (fun r => r.detail_page_id = some D) := by
      rw [hrows]
      exact List.mem_singleton.mpr rfl
    have := (List.mem_filter.mp hPmem).2
    exact of_decide_eq_true this
  refine ⟨?_, ?_, ?_⟩
  · rw [repairPass, hsh, List.foldl_cons, List.foldl_nil]
    exact repairSharedId_insert hrows hPd hnd hmiss
  · rw [repairPass, hsh, List.foldl_cons, List.foldl_nil]
    apply repairSharedId_covered
    intro d hd
    have hfilter : (store ++ [copyToDiagram d2 P]).filter
        (fun r => r.detail_page_id = some D) = [P, copyToDiagram d2 P] := by
      rw [List.filter_append, hrows, List.filter_cons_of_pos
        (by exact decide_eq_true hPdet)]
      rfl
    rw [hfilter]
    rcases List.mem_cons.mp hd with hdd | hd2
    · rw [hdd, ← hPd]
      exact List.mem_map_of_mem _ (List.mem_cons_self _ _)
    · rw [List.mem_singleton.mp hd2]
      simp [copyToDiagram]
  · rw [PartKeyNodup, List.pairwise_append]
    refine ⟨hkeyn, List.pairwise_singleton _ _, ?_⟩
    intro a ha b hb
    rw [List.mem_singleton.mp hb]
    intro hc
    exact hmiss a ha ⟨hc.1, hc.2⟩

/-- Witness for C6 at a concrete two-section page and one-row store. -/
theorem cross_diagram_repair_witness :
    ((["700", "701"] : List String).Nodup ∧
      (["700", "702"] : List String).Nodup ∧
      "700" ∈ (["700", "701"] : List String) ∧
      "700" ∈ (["700", "702"] : List String) ∧
      (∀ x ∈ (["700", "701"] : List String),
        x ∈ (["700", "702"] : List String) → x = "700") ∧
      "d1" ≠ "d2" ∧
      [demoStoredPart].filter
        (fun r => r.detail_page_id = some "700") = [demoStoredPart] ∧
      demoStoredPart.diagram_id = "d1" ∧
      (∀ r ∈ [demoStoredPart],
        ¬ (r.part_number = demoStoredPart.part_number ∧ r.diagram_id = "d2")) ∧
      PartKeyNodup [demoStoredPart]) ∧
    (repairPass
        [{ diagramId := "d1", detailPageIds := ["700", "701"] },
         { diagramId := "d2", detailPageIds := ["700", "702"] }]
        [demoStoredPart] =
        [demoStoredPart] ++ [copyToDiagram "d2" demoStoredPart] ∧
      repairPass
        [{ diagramId := "d1", detailPageIds := ["700", "701"] },
         { diagramId := "d2", detailPageIds := ["700", "702"] }]
        ([demoStoredPart] ++ [copyToDiagram "d2" demoStoredPart]) =
        [demoStoredPart] ++ [copyToDiagram "d2" demoStoredPart] ∧
      PartKeyNodup ([demoStoredPart] ++ [copyToDiagram "d2" demoStoredPart])) :=
  ⟨⟨by decide, by decide, by decide, by decide, by decide, by decide, by decide,
    by decide, by decide, List.pairwise_singleton _ _⟩,
    cross_diagram_repair [demoStoredPart] demoStoredPart ["700", "701"]
      ["700", "702"] "700" "d1" "d2" (by decide) (by decide) (by decide)
      (by decide) (by decide) (by decide) (by decide) (by decide) (by decide)
      (List.pairwise_singleton _ _)⟩



theorem getStatus_setStatus_self (st : CrawlStates) (u : String) (s : UrlStatus) :
    getStatus (setStatus st u s) u = some s := by
  induction st with
  | nil => simp [setStatus, getStatus, List.find?]
  | cons e t ih =>
    by_cases he : e.1 = u
    · rw [setStatus, if_pos he]
      simp [getStatus, List.find?]
    · rw [setStatus, if_neg he]
      simp only [getStatus, List.find?, he, decide_eq_true_eq]
      simp only [getStatus] at ih
      simpa [he] using ih

theorem getStatus_setStatus_ne (st : CrawlStates) {u v : String}
    (s : UrlStatus) (h : v ≠ u) :
    getStatus (setStatus st u s) v = getStatus st v := by
  induction st with
  | nil => simp [setStatus, getStatus, List.find?, Ne.symm h]
  | cons e t ih =>
    by_cases he : e.1 = u
    · rw [setStatus, if_pos he]
      have hev : ¬ e.1 = v := by rw [he]; exact Ne.symm h
      simp [getStatus, List.find?, Ne.symm h, hev]
    · rw [setStatus, if_neg he]
      by_cases hv : e.1 = v
      · simp [getStatus, List.find?, hv]
      · simp only [getStatus, List.find?, hv, decide_eq_true_eq]
        simp only [getStatus] at ih
        simpa [hv] using ih



theorem mem_setStatus {st : CrawlStates} {u : String} {s : UrlStatus} :
    ∀ b ∈ setStatus st u s, b.1 = u ∨ b ∈ st := by
  induction st with
  | nil =>
    intro b hb
    rw [setStatus, List.mem_singleton] at hb
    exact Or.inl (by rw [hb])
  | cons e t ih =>
    intro b hb
    by_cases he : e.1 = u
    · rw [setStatus, if_pos he] at hb
      rcases List.mem_cons.mp hb with hb | hb
      · exact Or.inl (by rw [hb])
      · exact Or.inr (List.mem_cons_of_mem _ hb)
    · rw [setStatus, if_neg he] at hb
      rcases List.mem_cons.mp hb with hb | hb
      · exact Or.inr (by rw [hb]; exact List.mem_cons_self e t)
      · rcases ih b hb with h | h
        · exact Or.inl h
        · exact Or.inr (List.mem_cons_of_mem _ h)

theorem nodupKeys_setStatus (st : CrawlStates) (u : String) (s : UrlStatus)
    (h : st.Pairwise (fun a b => a.1 ≠ b.1)) :
    (setStatus st u s).Pairwise (fun a b => a.1 ≠ b.1) := by
  induction st with
  | nil => simp [setStatus]
  | cons e t ih =>
    rw [List.pairwise_cons] at h
    by_cases he : e.1 = u
    · rw [setStatus, if_pos he]
      rw [List.pairwise_cons]
      refine ⟨?_, h.2⟩
      intro b hb
      show (u, s).1 ≠ b.1
      rw [← he]
      exact h.1 b hb
    · rw [setStatus, if_neg he]
      rw [List.pairwise_cons]
      refine ⟨?_, ih h.2⟩
      intro b hb
      rcases mem_setStatus b hb with hb1 | hb1
      · rw [hb1]
        exact he
      · exact h.1 b hb1

theorem getStatus_none_of_not_key {st : CrawlStates} {u : String}
    (h : u ∉ st.map Prod.fst) : getStatus st u = none := by
  induction st with
  | nil => rfl
  | cons e t ih =>
    rw [List.map_cons, List.mem_cons] at h
    push_neg at h
    simp only [getStatus, List.find?, fun hc : e.1 = u => h.1 hc.symm,
      decide_eq_true_eq]
    simp only [getStatus] at ih
    have he : (decide (e.1 = u)) = false :=
      decide_eq_false (fun hc => h.1 hc.symm)
    simp only [he]
    exact ih h.2

theorem pendingUrls_iff {st : CrawlStates}
    (h : st.Pairwise (fun a b => a.1 ≠ b.1)) (u : String) :
    u ∈ pendingUrls st ↔ getStatus st u = some UrlStatus.pending := by
  induction st with
  | nil => simp [pendingUrls, getStatus, List.find?]
  | cons e t ih =>
    rw [List.pairwise_cons] at h
    by_cases he : e.1 = u
    · have hkey : u ∉ t.map Prod.fst := by
        intro hc
        obtain ⟨b, hb, hbu⟩ := List.mem_map.mp hc
        exact h.1 b hb (he.trans hbu.symm)
      by_cases hp : e.2 = UrlStatus.pending
      · rw [pendingUrls, List.filter_cons_of_pos (by simp [hp])]
        simp only [List.map_cons, List.mem_cons]
        constructor
        · intro
          simp [getStatus, List.find?, he, hp]
        · intro
          exact Or.inl he.symm
      · rw [pendingUrls, List.filter_cons_of_neg (by simp [hp])]
        constructor
        · intro hmem
          exfalso
          rw [pendingUrls] at ih
          have := (ih h.2).mp hmem
          rw [getStatus_none_of_not_key hkey] at this
          exact Option.noConfusion this
        · intro hst
          exfalso
          have he2 : e.2 = UrlStatus.pending := by
            simpa [getStatus, List.find?, he] using hst
          exact hp he2
    · rw [pendingUrls]
      by_cases hp : e.2 = UrlStatus.pending
      · rw [List.filter_cons_of_pos (by simp [hp])]
        simp only [List.map_cons, List.mem_cons]
        rw [pendingUrls] at ih
        constructor
        · intro hmem
          rcases hmem with hmem | hmem
          · exact absurd hmem.symm he
          · have := (ih h.2).mp hmem
            simpa [getStatus, List.find?, he] using this
        · intro hst
          refine Or.inr ?_
          apply (ih h.2).mpr
          simpa [getStatus, List.find?, he] using hst
      · rw [List.filter_cons_of_neg (by simp [hp])]
        rw [pendingUrls] at ih
        constructor
        · intro hmem
          have := (ih h.2).mp hmem
          simpa [getStatus, List.find?, he] using this
        · intro hst
          apply (ih h.2).mpr
          simpa [getStatus, List.find?, he] using hst



theorem enqueueLinks_cons (l : String) (rest : List String)
    (p : CrawlStates × List String) :
    enqueueLinks (l :: rest) p =
      enqueueLinks rest
        (if getStatus p.1 l = none
         then (setStatus p.1 l UrlStatus.pending, p.2 ++ [l]) else p) := by
  rw [enqueueLinks, List.foldl_cons]
  rfl

theorem enqueueLinks_getStatus_some (links : List String) :
    ∀ (p : CrawlStates × List String) {u : String} {x : UrlStatus},
      getStatus p.1 u = some x →
      getStatus (enqueueLinks links p).1 u = some x := by
  induction links with
  | nil =>
    intro p u x h
    exact h
  | cons l rest ih =>
    intro p u x h
    rw [enqueueLinks_cons]
    by_cases hl : getStatus p.1 l = none
    · rw [if_pos hl]
      apply ih
      have hul : u ≠ l := by
        intro he
        rw [he, hl] at h
        exact Option.noConfusion h
      show getStatus (setStatus p.1 l UrlStatus.pending) u = some x
      rw [getStatus_setStatus_ne _ _ hul]
      exact h
    · rw [if_neg hl]
      exact ih p h

theorem enqueueLinks_completed (links : List String) :
    ∀ (p : CrawlStates × List String) {u : String},
      getStatus (enqueueLinks links p).1 u = some UrlStatus.completed →
      getStatus p.1 u = some UrlStatus.completed := by
  induction links with
  | nil =>
    intro p u h
    exact h
  | cons l rest ih =>
    intro p u h
    rw [enqueueLinks_cons] at h
    by_cases hl : getStatus p.1 l = none
    · rw [if_pos hl] at h
      have h2 := ih _ h
      by_cases hul : u = l
      · subst hul
        rw [show (setStatus p.1 u UrlStatus.pending, p.2 ++ [u]).1 =
            setStatus p.1 u UrlStatus.pending from rfl,
          getStatus_setStatus_self] at h2
        exact UrlStatus.noConfusion (Option.some.inj h2)
      · rw [show (setStatus p.1 l UrlStatus.pending, p.2 ++ [l]).1 =
            setStatus p.1 l UrlStatus.pending from rfl,
          getStatus_setStatus_ne _ _ hul] at h2
        exact h2
    · rw [if_neg hl] at h
      exact ih p h

theorem enqueueLinks_nodupKeys (links : List String) :
    ∀ (p : CrawlStates × List String),
      p.1.Pairwise (fun a b => a.1 ≠ b.1) →
      (enqueueLinks links p).1.Pairwise (fun a b => a.1 ≠ b.1) := by
  induction links with
  | nil =>
    intro p h
    exact h
  | cons l rest ih =>
    intro p h
    rw [enqueueLinks_cons]
    by_cases hl : getStatus p.1 l = none
    · rw [if_pos hl]
      exact ih _ (nodupKeys_setStatus _ _ _ h)
    · rw [if_neg hl]
      exact ih p h



theorem inv_stepRun (env : CrawlEnv) (m : CrawlMach) (h : CrawlInv env m) :
    CrawlInv env (stepRun env m) := by
  obtain ⟨h1, h2, h3, h4⟩ := h
  cases hph : m.phase with
  | idle =>
    cases hq : m.queue with
    | nil =>
      simp only [stepRun, hph, hq]
      exact ⟨h1, h2, h3, h4⟩
    | cons u rest =>
      by_cases hc : getStatus m.states u = some UrlStatus.completed
      · simp only [stepRun, hph, hq, if_pos hc]
        refine ⟨fun v hv => h1 v hv, ?_, h3, ?_⟩
        · intro v hv
          have hv2 : CrawlPhase.idle = CrawlPhase.marking v := hv
          exact CrawlPhase.noConfusion hv2
        · intro v hv
          have hv2 : CrawlPhase.idle = CrawlPhase.fetching v := hv
          exact absurd hv2 (by simp)
      · simp only [stepRun, hph, hq, if_neg hc]
        refine ⟨fun v hv => h1 v hv, ?_, h3, ?_⟩
        · intro v hv
          have hv2 : CrawlPhase.fetching u = CrawlPhase.marking v := hv
          exact CrawlPhase.noConfusion hv2
        · intro v hv
          have hv2 : CrawlPhase.fetching u = CrawlPhase.fetching v := hv
          injection hv2 with huv
          intro hcv
          rw [← huv] at hcv
          exact hc hcv
  | fetching u =>
    by_cases hok : env.fetchOk u = true
    · simp only [stepRun, hph, if_pos hok]
      refine ⟨fun v hv => h1 v hv, ?_, h3, ?_⟩
      · intro v hv
        have hv2 : CrawlPhase.persisting u = CrawlPhase.marking v := hv
        exact CrawlPhase.noConfusion hv2
      · intro v hv
        have hv2 : CrawlPhase.persisting u = CrawlPhase.fetching v := hv
        exact CrawlPhase.noConfusion hv2
    · simp only [stepRun, hph, if_neg hok]
      refine ⟨?_, ?_, nodupKeys_setStatus _ _ _ h3, ?_⟩
      · intro v hv
        have hv2 : getStatus (setStatus m.states u UrlStatus.failed) v =
            some UrlStatus.completed := hv
        by_cases hvu : v = u
        · subst hvu
          rw [getStatus_setStatus_self] at hv2
          exact UrlStatus.noConfusion (Option.some.inj hv2)
        · rw [getStatus_setStatus_ne _ _ hvu] at hv2
          exact h1 v hv2
      · intro v hv
        have hv2 : CrawlPhase.idle = CrawlPhase.marking v := hv
        exact CrawlPhase.noConfusion hv2
      · intro v hv
        have hv2 : CrawlPhase.idle = CrawlPhase.fetching v := hv
        exact CrawlPhase.noConfusion hv2
  | persisting u =>
    simp only [stepRun, hph]
    refine ⟨?_, ?_, ?_, ?_⟩
    · intro v hv
      have hv2 : getStatus
          (enqueueLinks (env.pageLinks u) (m.states, m.queue)).1 v =
          some UrlStatus.completed := hv
      have hold : getStatus m.states v = some UrlStatus.completed :=
        enqueueLinks_completed (env.pageLinks u) (m.states, m.queue) hv2
      intro r hr
      exact List.mem_append_left _ (h1 v hold r hr)
    · intro v hv
      have hv2 : CrawlPhase.marking u = CrawlPhase.marking v := hv
      injection hv2 with huv
      subst huv
      intro r hr
      exact List.mem_append_right _ (List.mem_map_of_mem _ hr)
    · exact enqueueLinks_nodupKeys (env.pageLinks u) (m.states, m.queue) h3
    · intro v hv
      have hv2 : CrawlPhase.marking u = CrawlPhase.fetching v := hv
      exact CrawlPhase.noConfusion hv2
  | marking u =>
    simp only [stepRun, hph]
    refine ⟨?_, ?_, nodupKeys_setStatus _ _ _ h3, ?_⟩
    · intro v hv
      have hv2 : getStatus (setStatus m.states u UrlStatus.completed) v =
          some UrlStatus.completed := hv
      by_cases hvu : v = u
      · subst hvu
        exact h2 v hph
      · rw [getStatus_setStatus_ne _ _ hvu] at hv2
        exact h1 v hv2
    · intro v hv
      have hv2 : CrawlPhase.idle = CrawlPhase.marking v := hv
      exact CrawlPhase.noConfusion hv2
    · intro v hv
      have hv2 : CrawlPhase.idle = CrawlPhase.fetching v := hv
      exact CrawlPhase.noConfusion hv2



theorem inv_execSteps (env : CrawlEnv) :
    ∀ (n : Nat) (m : CrawlMach), CrawlInv env m →
      CrawlInv env (execSteps env n m) := by
  intro n
  induction n with
  | zero => intro m h; exact h
  | succ n ih =>
    intro m h
    rw [execSteps]
    exact ih (stepRun env m) (inv_stepRun env m h)

theorem inv_restartMach (env : CrawlEnv) (m : CrawlMach)
    (h : CrawlInv env m) : CrawlInv env (restartMach m) := by
  obtain ⟨h1, h2, h3, h4⟩ := h
  refine ⟨fun v hv => h1 v hv, ?_, h3, ?_⟩
  · intro v hv
    have hv2 : CrawlPhase.idle = CrawlPhase.marking v := hv
    exact CrawlPhase.noConfusion hv2
  · intro v hv
    have hv2 : CrawlPhase.idle = CrawlPhase.fetching v := hv
    exact CrawlPhase.noConfusion hv2

theorem completed_mono_step (env : CrawlEnv) (m : CrawlMach) (u : String)
    (h : CrawlInv env m)
    (hc : getStatus m.states u = some UrlStatus.completed) :
    getStatus (stepRun env m).states u = some UrlStatus.completed := by
  obtain ⟨h1, h2, h3, h4⟩ := h
  cases hph : m.phase with
  | idle =>
    cases hq : m.queue with
    | nil =>
      simp only [stepRun, hph, hq]
      exact hc
    | cons w rest =>
      by_cases hcw : getStatus m.states w = some UrlStatus.completed
      · simp only [stepRun, hph, hq, if_pos hcw]
        exact hc
      · simp only [stepRun, hph, hq, if_neg hcw]
        exact hc
  | fetching w =>
    by_cases hok : env.fetchOk w = true
    · simp only [stepRun, hph, if_pos hok]
      exact hc
    · simp only [stepRun, hph, if_neg hok]
      have huw : u ≠ w := by
        intro he
        exact h4 w hph (he ▸ hc)
      show getStatus (setStatus m.states w UrlStatus.failed) u =
        some UrlStatus.completed
      rw [getStatus_setStatus_ne _ _ huw]
      exact hc
  | persisting w =>
    simp only [stepRun, hph]
    exact enqueueLinks_getStatus_some (env.pageLinks w) (m.states, m.queue) hc
  | marking w =>
    simp only [stepRun, hph]
    by_cases huw : u = w
    · subst huw
      show getStatus (setStatus m.states u UrlStatus.completed) u =
        some UrlStatus.completed
      rw [getStatus_setStatus_self]
    · show getStatus (setStatus m.states w UrlStatus.completed) u =
        some UrlStatus.completed
      rw [getStatus_setStatus_ne _ _ huw]
      exact hc

theorem completed_mono_exec (env : CrawlEnv) :
    ∀ (n : Nat) (m : CrawlMach) (u : String), CrawlInv env m →
      getStatus m.states u = some UrlStatus.completed →
      getStatus (execSteps env n m).states u = some UrlStatus.completed := by
  intro n
  induction n with
  | zero => intro m u _ hc; exact hc
  | succ n ih =>
    intro m u h hc
    rw [execSteps]
    exact ih (stepRun env m) u (inv_stepRun env m h)
      (completed_mono_step env m u h hc)

theorem stepRun_fetching_not_completed (env : CrawlEnv) (m : CrawlMach)
    (u : String) (hf : (stepRun env m).phase = CrawlPhase.fetching u) :
    getStatus m.states u ≠ some UrlStatus.completed := by
  cases hph : m.phase with
  | idle =>
    cases hq : m.queue with
    | nil =>
      rw [show (stepRun env m) = m by simp only [stepRun, hph, hq]] at hf
      rw [hph] at hf
      exact CrawlPhase.noConfusion hf
    | cons w rest =>
      by_cases hcw : getStatus m.states w = some UrlStatus.completed
      · simp only [stepRun, hph, hq, if_pos hcw] at hf
        have hf2 : CrawlPhase.idle = CrawlPhase.fetching u := hph ▸ hf
        exact CrawlPhase.noConfusion hf2
      · simp only [stepRun, hph, hq, if_neg hcw] at hf
        have hf2 : CrawlPhase.fetching w = CrawlPhase.fetching u := hf
        injection hf2 with hwu
        rw [← hwu]
        exact hcw
  | fetching w =>
    by_cases hok : env.fetchOk w = true
    · simp only [stepRun, hph, if_pos hok] at hf
      have hf2 : CrawlPhase.persisting w = CrawlPhase.fetching u := hf
      exact CrawlPhase.noConfusion hf2
    · simp only [stepRun, hph, if_neg hok] at hf
      have hf2 : CrawlPhase.idle = CrawlPhase.fetching u := hf
      exact CrawlPhase.noConfusion hf2
  | persisting w =>
    simp only [stepRun, hph] at hf
    have hf2 : CrawlPhase.marking w = CrawlPhase.fetching u := hf
    exact CrawlPhase.noConfusion hf2
  | marking w =>
    simp only [stepRun, hph] at hf
    have hf2 : CrawlPhase.idle = CrawlPhase.fetching u := hf
    exact CrawlPhase.noConfusion hf2



/-- Claim C1: in every reachable scheduler state the invariant holds -- in
particular a URL whose stored CrawlState is completed has all its extracted
records already persisted, because processQueue marks a URL completed only
after the persist micro-step; a URL stored as completed never enters the
fetching phase, neither at the next step (processQueue skips it at dequeue)
nor after any number of further steps; and on restart the re-hydrated queue
contains exactly the URLs whose stored status is pending. -/
theorem crawl_scheduler_correct (env : CrawlEnv) (m : CrawlMach)
    (hInv : CrawlInv env m) :
    (∀ n, CrawlInv env (execSteps env n m)) ∧
    CrawlInv env (restartMach m) ∧
    (∀ u, (stepRun env m).phase = CrawlPhase.fetching u →
      getStatus m.states u ≠ some UrlStatus.completed) ∧
    (∀ u n, getStatus m.states u = some UrlStatus.completed →
      getStatus (execSteps env n m).states u = some UrlStatus.completed ∧
      (execSteps env n m).phase ≠ CrawlPhase.fetching u) ∧
    (∀ u, u ∈ (restartMach m).queue ↔
      getStatus m.states u = some UrlStatus.pending) := by
  refine ⟨fun n => inv_execSteps env n m hInv, inv_restartMach env m hInv,
    fun u => stepRun_fetching_not_completed env m u, ?_, ?_⟩
  · intro u n hc
    refine ⟨completed_mono_exec env n m u hInv hc, ?_⟩
    intro hf
    have hInv2 := inv_execSteps env n m hInv
    exact hInv2.2.2.2 u hf (completed_mono_exec env n m u hInv hc)
  · intro u
    have hq : (restartMach m).queue = pendingUrls m.states := rfl
    rw [hq]
    exact pendingUrls_iff hInv.2.2.1 u

/-- Witness for C1 at a concrete environment and fresh one-URL state. -/
theorem crawl_scheduler_correct_witness :
    CrawlInv demoEnv demoMach ∧
    ((∀ n, CrawlInv demoEnv (execSteps demoEnv n demoMach)) ∧
      CrawlInv demoEnv (restartMach demoMach) ∧
      (∀ u, (stepRun demoEnv demoMach).phase = CrawlPhase.fetching u →
        getStatus demoMach.states u ≠ some UrlStatus.completed) ∧
      (∀ u n, getStatus demoMach.states u = some UrlStatus.completed →
        getStatus (execSteps demoEnv n demoMach).states u =
          some UrlStatus.completed ∧
        (execSteps demoEnv n demoMach).phase ≠ CrawlPhase.fetching u) ∧
      (∀ u, u ∈ (restartMach demoMach).queue ↔
        getStatus demoMach.states u = some UrlStatus.pending)) :=
  have hInv : CrawlInv demoEnv demoMach :=
    ⟨fun _ hu => Option.noConfusion hu,
     fun _ hu => CrawlPhase.noConfusion hu,
     List.Pairwise.nil,
     fun _ hu => CrawlPhase.noConfusion hu⟩
  ⟨hInv, crawl_scheduler_correct demoEnv demoMach hInv⟩


end DelicaScraper
